import Mathlib

/-!
# Verification of the CBOR codec in `ext/aws_crt/src/cbor.rs`

Shallow embedding of the CBOR encoder/decoder.  Ruby values reachable by the
codec are modelled by the inductive type `RVal`; byte buffers are `List Nat`
whose elements are below 256 (the Rust code works on `u8` slices, so validity
is a typing invariant there; here it is either irrelevant to a statement or
carried as a hypothesis).  Machine-integer casts (`as u64`, `as u8`) are made
explicit with `% 2 ^ 64` / `% 256`.  Fallible operations return
`Except DErr _` / an `Option EncErr` error component.  All recursive
definitions are structurally recursive (fuel-indexed where the source recurses
on values or streams), so every definition evaluates inside the kernel.
-/

namespace Cbor

/-- The two string encodings the codec distinguishes: `BINARY` (ASCII-8BIT)
strings become CBOR byte strings (major 2), everything else is written as a
text string (major 3) and decoding produces UTF-8 strings. -/
inductive StrEnc where
  | utf8
  | binary
deriving DecidableEq, Repr

/-- Ruby values as seen by the codec (`encode_value` / `decode_value`).

* `vint` covers Fixnum and Bignum alike: Ruby integers are arbitrary precision.
* `vfloat` carries the IEEE-754 binary64 bit pattern (a `Nat` below `2 ^ 64`).
* `vstr` carries the encoding flag and the raw content bytes.
* `vmap` is a Ruby Hash: an insertion-ordered list of key/value pairs
  (Ruby hashes have unique keys; where that matters it is a hypothesis).
* `vtagged` is `AwsCrt::Cbor::Tagged.new(tag, value)`.
* `vsym` is a Symbol with the given name bytes (`:undefined` is produced by
  the decoder for additional info 23; symbols encode as text).
* `vtime` models a Ruby `Time` produced by decoding tag 1: it wraps the
  decoded epoch item.
* `vbigdec m e` models a finite BigDecimal with value `m * 10 ^ e`.
* `vunsupported` stands for any Ruby object with no CBOR mapping
  (`T_STRUCT`, unrecognized `T_DATA`, `Object`, ...); encoding it raises
  `UnknownTypeError`. -/
inductive RVal where
  | vnil
  | vbool (b : Bool)
  | vint (n : Int)
  | vfloat (bits : Nat)
  | vstr (enc : StrEnc) (bytes : List Nat)
  | varr (xs : List RVal)
  | vmap (ps : List (RVal × RVal))
  | vtagged (tag : Nat) (v : RVal)
  | vsym (name : List Nat)
  | vtime (v : RVal)
  | vbigdec (m e : Int)
  | vunsupported

/-- Encode-side errors.  `fuelExhausted` is an artifact of the fuel-indexed
model and is unreachable for fuel at least `sizeOf v` (proved below); the Rust
code has no such case. -/
inductive EncErr where
  | unknownType
  | fuelExhausted
deriving DecidableEq, Repr

/-- Decode-side errors; each constructor corresponds to one Ruby exception
class raised in `cbor.rs`.

* `outOfBytes n avail` — `AwsCrt::Cbor::OutOfBytesError`, "Trying to read n
  bytes but buffer contains only avail" (`avail` is an `isize` in the source).
* `extraBytes n` — `AwsCrt::Cbor::ExtraBytesError`.
* `unexpectedAddInfo ai` — `UnexpectedAdditionalInformationError`, raised by
  `dec_read_count` for reserved additional info 28-30.
* `unexpectedBreak` — `UnexpectedBreakCodeError` (0xFF at value position).
* `reservedInfo ai` — generic `AwsCrt::Cbor::Error`, "Undefined reserved
  additional information" (major 7, additional info not otherwise handled).
* `expectedInteger major` — generic `Error` from `decode_integer_raw`.
* `invalidBignumTag tag` — generic `Error` from `decode_bignum_raw`
  (unreachable from its call sites).
* `bigdecLen len` — generic `Error` from `decode_bigdec_raw`, "Expected array
  of length 2".
* `timeTypeError` — the `TypeError` Ruby raises from `Time.at` when tag 1
  wraps a non-numeric item.
* `fuelExhausted` is an artifact of the fuel-indexed model (unreachable for
  the fuel bounds used by the top-level entry points on well-formed input). -/
inductive DErr where
  | outOfBytes (requested : Nat) (available : Int)
  | extraBytes (remaining : Nat)
  | unexpectedAddInfo (ai : Nat)
  | unexpectedBreak
  | reservedInfo (ai : Nat)
  | expectedInteger (major : Nat)
  | invalidBignumTag (tag : Nat)
  | bigdecLen (len : Nat)
  | timeTypeError
  | fuelExhausted
deriving DecidableEq, Repr

/-! ## Byte-level helpers -/

/-- `k` big-endian base-256 digits of `v` (the value of `to_be_bytes` on the
`k`-byte unsigned integer `v % 256 ^ k`). -/
def natToBE : Nat → Nat → List Nat
  | 0, _ => []
  | k + 1, v => natToBE k (v / 256) ++ [v % 256]

/-- Big-endian byte fold: `from_be_bytes`, and also the accumulation loop
`val = (val << 8) + b` of `decode_bignum_raw`. -/
def beFold (l : List Nat) : Nat :=
  l.foldl (fun a b => a * 256 + b) 0

/-- CBOR head encoding, `write_head` in `cbor.rs`: the smallest of the five
encodings of the unsigned value `v` (`v` is a `u64` there, so `v < 2 ^ 64`).
`major` is the already-shifted major-type constant (0x00, 0x20, ..., 0xe0);
`major | x` on disjoint bit ranges is written `major + x`. -/
def writeHead (major : Nat) (v : Nat) : List Nat :=
  if v ≤ 23 then [major + v]
  else if v ≤ 0xff then [major + 24, v]
  else if v ≤ 0xffff then (major + 25) :: natToBE 2 v
  else if v ≤ 0xffffffff then (major + 26) :: natToBE 4 v
  else (major + 27) :: natToBE 8 v

/-- `encode_integer`: non-negative values under major 0, negative values as
`-1 - val` under major 1.  The source takes an `i128` and casts the magnitude
with `as u64`; the cast's wrapping is the `% 2 ^ 64`. -/
def encodeInteger (n : Int) : List Nat :=
  if n < 0 then writeHead 0x20 ((-1 - n).toNat % 2 ^ 64)
  else writeHead 0x00 (n.toNat % 2 ^ 64)

/-- Fuel-indexed base-2 logarithm; `log2F f n = Nat.log2 n` whenever
`n ≤ f` (proved below).  Written this way so that it evaluates inside the
kernel (the recursion runs `log2 n` steps, not `f` steps). -/
def log2F : Nat → Nat → Nat
  | 0, _ => 0
  | f + 1, n => if n ≤ 1 then 0 else log2F f (n / 2) + 1

/-- Floor base-2 logarithm (0 at 0), kernel-evaluable. -/
def nlog2 (n : Nat) : Nat := log2F n n

/-- Ruby `Integer#bit_length` for non-negative integers. -/
def rubyBitLength (m : Nat) : Nat :=
  if m = 0 then 0 else nlog2 m + 1

/-- The big-endian magnitude bytes produced by the shift/mask loop in
`encode_ruby_bignum`: `byte_count = (bit_length + 7) / 8` bytes, most
significant first, `(m >> (i*8)) & 0xff`. -/
def magBytes (m : Nat) : List Nat :=
  ((List.range ((rubyBitLength m + 7) / 8)).reverse).map fun i => m / 2 ^ (8 * i) % 256

/-! ## IEEE-754 bit-level float model

`encode_auto_float` decides between the 4-byte and 8-byte forms with
`val as f32` and `(single as f64) == val`.  We model binary64/binary32
values by their bit patterns and implement the two conversions:
`f64ToF32` is the narrowing cast (round to nearest, ties to even, overflow
to infinity, NaN quieted with truncated payload, as on x86 `cvtsd2ss`),
`f32ToF64` is the exact widening cast.  For non-NaN operands the Rust `==`
test agrees with bit equality (signed zeros convert sign-preservingly). -/

/-- Shift `m` right by `k` bits, rounding to nearest with ties to even. -/
def rshiftRNE (m k : Nat) : Nat :=
  if k = 0 then m
  else if 2 ^ (k - 1) < m % 2 ^ k then m / 2 ^ k + 1
  else if m % 2 ^ k < 2 ^ (k - 1) then m / 2 ^ k
  else if m / 2 ^ k % 2 = 1 then m / 2 ^ k + 1
  else m / 2 ^ k

/-- The significand of `m`, scaled or rounded (ties to even) to 24 bits;
`b` is the index of the top set bit of `m`. -/
def roundSig (m b : Nat) : Nat :=
  if b ≤ 23 then m * 2 ^ (23 - b) else rshiftRNE m (b - 23)

/-- Round the positive real `m * 2 ^ t` (with `m > 0`) to binary32, returning
the bit pattern with sign bit `s`.  The rounded 24-bit significand may carry
into `2 ^ 24`, bumping the exponent; exponents above 127 overflow to
infinity; values below `2 ^ (-126)` land on the subnormal grid
`2 ^ (-149)`. -/
def roundToF32 (s m : Nat) (t : Int) : Nat :=
  if -126 ≤ (nlog2 m : Int) + t then
    if roundSig m (nlog2 m) = 2 ^ 24 then
      if 127 < (nlog2 m : Int) + t + 1 then s * 2 ^ 31 + 255 * 2 ^ 23
      else s * 2 ^ 31 + ((nlog2 m : Int) + t + 1 + 127).toNat * 2 ^ 23
    else
      if 127 < (nlog2 m : Int) + t then s * 2 ^ 31 + 255 * 2 ^ 23
      else s * 2 ^ 31 + ((nlog2 m : Int) + t + 127).toNat * 2 ^ 23 +
        (roundSig m (nlog2 m) - 2 ^ 23)
  else
    if 0 ≤ t + 149 then s * 2 ^ 31 + m * 2 ^ (t + 149).toNat
    else s * 2 ^ 31 + rshiftRNE m (-(t + 149)).toNat

/-- Is the binary64 bit pattern a NaN? -/
def isNan64 (x : Nat) : Bool :=
  x / 2 ^ 52 % 2 ^ 11 = 2047 && x % 2 ^ 52 ≠ 0

/-- Narrow a binary64 bit pattern to binary32 (`val as f32`). -/
def f64ToF32 (x : Nat) : Nat :=
  if x / 2 ^ 52 % 2 ^ 11 = 2047 then
    if x % 2 ^ 52 = 0 then x / 2 ^ 63 % 2 * 2 ^ 31 + 255 * 2 ^ 23
    else if x % 2 ^ 52 / 2 ^ 29 < 2 ^ 22 then
      x / 2 ^ 63 % 2 * 2 ^ 31 + 255 * 2 ^ 23 + (x % 2 ^ 52 / 2 ^ 29 + 2 ^ 22)
    else x / 2 ^ 63 % 2 * 2 ^ 31 + 255 * 2 ^ 23 + x % 2 ^ 52 / 2 ^ 29
  else if x / 2 ^ 52 % 2 ^ 11 = 0 ∧ x % 2 ^ 52 = 0 then x / 2 ^ 63 % 2 * 2 ^ 31
  else if x / 2 ^ 52 % 2 ^ 11 = 0 then roundToF32 (x / 2 ^ 63 % 2) (x % 2 ^ 52) (-1074)
  else
    roundToF32 (x / 2 ^ 63 % 2) (2 ^ 52 + x % 2 ^ 52)
      (Int.ofNat (x / 2 ^ 52 % 2 ^ 11) - 1075)

/-- Widen a binary32 bit pattern to binary64 (`f as f64`, exact). -/
def f32ToF64 (x : Nat) : Nat :=
  if x / 2 ^ 23 % 2 ^ 8 = 255 then
    x / 2 ^ 31 % 2 * 2 ^ 63 + 2047 * 2 ^ 52 + x % 2 ^ 23 * 2 ^ 29
  else if x / 2 ^ 23 % 2 ^ 8 = 0 then
    if x % 2 ^ 23 = 0 then x / 2 ^ 31 % 2 * 2 ^ 63
    else
      x / 2 ^ 31 % 2 * 2 ^ 63 + (nlog2 (x % 2 ^ 23) + 874) * 2 ^ 52 +
        (x % 2 ^ 23 * 2 ^ (52 - nlog2 (x % 2 ^ 23)) - 2 ^ 52)
  else
    x / 2 ^ 31 % 2 * 2 ^ 63 + (x / 2 ^ 23 % 2 ^ 8 + 896) * 2 ^ 52 + x % 2 ^ 23 * 2 ^ 29

/-- Value of a binary16 bit pattern as a binary64 bit pattern: the exact
result of the arithmetic in `decode_half_raw` (all of which is exact in
binary64), including its `-NaN` for negative-signed half NaNs. -/
def halfToF64 (b16 : Nat) : Nat :=
  if b16 / 2 ^ 10 % 32 = 0 then
    if b16 % 2 ^ 10 = 0 then b16 / 2 ^ 15 % 2 * 2 ^ 63
    else
      b16 / 2 ^ 15 % 2 * 2 ^ 63 + (nlog2 (b16 % 2 ^ 10) + 999) * 2 ^ 52 +
        (b16 % 2 ^ 10 * 2 ^ (52 - nlog2 (b16 % 2 ^ 10)) - 2 ^ 52)
  else if b16 / 2 ^ 10 % 32 = 31 then
    if b16 % 2 ^ 10 = 0 then b16 / 2 ^ 15 % 2 * 2 ^ 63 + 2047 * 2 ^ 52
    else b16 / 2 ^ 15 % 2 * 2 ^ 63 + 2047 * 2 ^ 52 + 2 ^ 51
  else
    b16 / 2 ^ 15 % 2 * 2 ^ 63 + (b16 / 2 ^ 10 % 32 + 1008) * 2 ^ 52 +
      ((1024 + b16 % 2 ^ 10) * 2 ^ 42 - 2 ^ 52)

/-- `encode_double`: marker 0xFB plus the 8 big-endian bytes. -/
def encodeDouble (x : Nat) : List Nat :=
  0xfb :: natToBE 8 x

/-- `encode_auto_float`: NaN goes out as the 4-byte single form of
`val as f32`; otherwise the 4-byte form is used exactly when the value
survives the round trip through binary32, else the 8-byte form. -/
def encodeAutoFloat (x : Nat) : List Nat :=
  if isNan64 x then 0xfa :: natToBE 4 (f64ToF32 x)
  else
    let single := f64ToF32 x
    if f32ToF64 single = x then 0xfa :: natToBE 4 single
    else encodeDouble x

/-! ## Encoder

`encode_value` writes directly into the `Encoder`'s growable buffer and
recurses into containers; on error it returns immediately, leaving whatever
it already wrote in the buffer.  `encodeInto fuel buf v` returns the buffer
contents after the call together with the error, if any.  The fuel only
bounds value-nesting depth (one unit per recursion level); `sizeOf v`
always suffices. -/

/-- The name bytes of the symbol `:undefined` (UTF-8 "undefined"). -/
def undefinedName : List Nat := [117, 110, 100, 101, 102, 105, 110, 101, 100]

/-- Ruby `Time#to_f` on the value a decoded tag-1 `Time` wraps.  Exact for
floats; for other numeric kinds the conversion happens in the host runtime
(outside this codebase) and no claim depends on it, so they map to the
+0.0 pattern here. -/
def timeToF64 : RVal → Nat
  | .vfloat b => b
  | _ => 0

/-- One strip step of trailing-zero removal: `BigDecimal#split` yields the
digit string without trailing zeros, so a finite BigDecimal `m * 10 ^ e`
splits into mantissa `m / 10 ^ z` and exponent contribution `e + z` for the
maximal `z` with `10 ^ z ∣ m`. -/
def stripTens (fuel : Nat) (m e : Int) : Int × Int :=
  match fuel with
  | 0 => (m, e)
  | fuel + 1 => if m ≠ 0 ∧ m % 10 = 0 then stripTens fuel (m / 10) (e + 1) else (m, e)

/-- `encode_value` (together with `encode_integer`, `encode_ruby_bignum`,
`encode_big_decimal` and the hash-foreach callback), modelled as a function
from the current buffer contents and the value to the new buffer contents
and the error, if any.

* Fixnums and i64-convertible Bignums take `encode_integer`; u64-convertible
  positive Bignums take the direct major-0 head; all other Bignums take the
  tag 2/3 path with magnitude `v` (positive) or `-1 - v` (negative).
* A `BINARY`-encoded string is a byte string, any other string a text string.
* Arrays/maps write their head and then each element (each key, then value)
  in order, aborting on the first element error with the bytes written so
  far kept in the buffer (`rb_hash_foreach` stops when the callback signals
  an error).
* `Tagged` writes the major-6 head with the (u64) tag, then the inner value.
* `Time` writes tag 1 plus `encode_double` of `to_f`.
* A finite `BigDecimal` writes tag 4 plus `[exponent, mantissa]` (the
  mantissa is parsed into an `i128` in the source; the model keeps it exact,
  which agrees on every value a claim touches).
* Values with no mapping produce `UnknownTypeError` with nothing written
  for them. -/
def encodeInto : Nat → List Nat → RVal → List Nat × Option EncErr
  | 0, buf, _ => (buf, some .fuelExhausted)
  | fuel + 1, buf, v =>
    match v with
    | .vnil => (buf ++ writeHead 0xe0 22, none)
    | .vbool true => (buf ++ writeHead 0xe0 21, none)
    | .vbool false => (buf ++ writeHead 0xe0 20, none)
    | .vint n =>
        if -(2 ^ 63) ≤ n ∧ n < 2 ^ 63 then (buf ++ encodeInteger n, none)
        else if 0 ≤ n ∧ n < 2 ^ 64 then (buf ++ writeHead 0x00 n.toNat, none)
        else
          let mag := if n < 0 then (-1 - n).toNat else n.toNat
          let mb := magBytes mag
          (buf ++ writeHead 0xc0 (if n < 0 then 3 else 2) ++
            writeHead 0x40 (mb.length % 2 ^ 64) ++ mb, none)
    | .vfloat b => (buf ++ encodeAutoFloat b, none)
    | .vstr .binary bs => (buf ++ writeHead 0x40 (bs.length % 2 ^ 64) ++ bs, none)
    | .vstr .utf8 bs => (buf ++ writeHead 0x60 (bs.length % 2 ^ 64) ++ bs, none)
    | .vsym name => (buf ++ writeHead 0x60 (name.length % 2 ^ 64) ++ name, none)
    | .varr xs =>
        xs.foldl
          (fun st x => match st with
            | (b, none) => encodeInto fuel b x
            | st => st)
          (buf ++ writeHead 0x80 (xs.length % 2 ^ 64), none)
    | .vmap ps =>
        ps.foldl
          (fun st kv => match st with
            | (b, none) =>
                match encodeInto fuel b kv.1 with
                | (b2, none) => encodeInto fuel b2 kv.2
                | r => r
            | st => st)
          (buf ++ writeHead 0xa0 (ps.length % 2 ^ 64), none)
    | .vtagged t inner => encodeInto fuel (buf ++ writeHead 0xc0 (t % 2 ^ 64)) inner
    | .vtime inner =>
        (buf ++ writeHead 0xc0 1 ++ encodeDouble (timeToF64 inner), none)
    | .vbigdec m e =>
        let me := stripTens m.natAbs m e
        (buf ++ writeHead 0xc0 4 ++ writeHead 0x80 2 ++
          encodeInteger me.2 ++ encodeInteger me.1, none)
    | .vunsupported => (buf, some .unknownType)

/-- The stateful `Encoder#add`: encode into the owned buffer, returning the
new buffer contents and the error, if any (on error the written prefix
stays in the buffer — there is no rollback in `rb_add`).  The fuel argument
is the recursion-depth bound of the model; any value at least the nesting
depth of `v` gives the source behavior. -/
def rbAdd (fuel : Nat) (buf : List Nat) (v : RVal) : List Nat × Option EncErr :=
  encodeInto fuel buf v

/-- `Encoder#bytes`: snapshot of the buffer. -/
def rbBytes (buf : List Nat) : List Nat := buf

/-- Module-level `AwsCrt::Cbor.encode`: encode into a fresh buffer and
return it, or propagate the error (the partial local buffer is dropped). -/
def rbEncode (fuel : Nat) (v : RVal) : Except EncErr (List Nat) :=
  match encodeInto fuel [] v with
  | (out, none) => .ok out
  | (_, some e) => .error e

/-! ## Decoder -/

/-- `dec_peek`: the byte at `pos`, or `OutOfBytesError`. -/
def decPeek (data : List Nat) (pos : Nat) : Except DErr Nat :=
  if pos < data.length then .ok (data.getD pos 0)
  else .error (.outOfBytes 1 ((data.length : Int) - pos))

/-- `dec_take`: the `n` bytes starting at `pos` and the advanced position,
or `OutOfBytesError` stating requested vs available. -/
def decTake (data : List Nat) (pos n : Nat) : Except DErr (List Nat × Nat) :=
  if pos + n ≤ data.length then .ok ((data.drop pos).take n, pos + n)
  else .error (.outOfBytes n ((data.length : Int) - pos))

/-- `dec_read_info`: consume one byte, returning its major type (top 3 bits)
and additional information (low 5 bits).  The byte is a `u8` in the source,
so `b >> 5` is `b / 32`. -/
def decReadInfo (data : List Nat) (pos : Nat) : Except DErr ((Nat × Nat) × Nat) := do
  let (bs, p) ← decTake data pos 1
  let b := bs.getD 0 0
  .ok ((b / 32, b % 32), p)

/-- `dec_read_count`: resolve the additional information to the count/value,
reading 1/2/4/8 big-endian bytes for 24/25/26/27 and failing with
`UnexpectedAdditionalInformationError` for 28-31 (31 is handled by the
callers that allow indefinite lengths before they call this). -/
def decReadCount (data : List Nat) (pos : Nat) (ai : Nat) : Except DErr (Nat × Nat) :=
  if ai ≤ 23 then .ok (ai, pos)
  else if ai = 24 then do
    let (bs, p) ← decTake data pos 1
    .ok (bs.getD 0 0, p)
  else if ai = 25 then do
    let (bs, p) ← decTake data pos 2
    .ok (beFold bs, p)
  else if ai = 26 then do
    let (bs, p) ← decTake data pos 4
    .ok (beFold bs, p)
  else if ai = 27 then do
    let (bs, p) ← decTake data pos 8
    .ok (beFold bs, p)
  else .error (.unexpectedAddInfo ai)

/-- `decode_integer_raw`: head plus count, major 0 giving `val` and major 1
giving `-1 - val` (the Fixnum/i64/u64/Bignum splits in the source all
produce that same integer), any other major type a generic error. -/
def decodeIntegerRaw (data : List Nat) (pos : Nat) : Except DErr (Int × Nat) := do
  let ((major, ai), p1) ← decReadInfo data pos
  let (val, p2) ← decReadCount data p1 ai
  if major = 0 then .ok ((val : Int), p2)
  else if major = 1 then .ok (-1 - (val : Int), p2)
  else .error (.expectedInteger major)

/-- `decode_binary_raw`: head (major ignored), count, then that many raw
bytes as a `BINARY` string. -/
def decodeBinaryRaw (data : List Nat) (pos : Nat) : Except DErr (RVal × Nat) := do
  let ((_mt, ai), p1) ← decReadInfo data pos
  let (len, p2) ← decReadCount data p1 ai
  let (bs, p3) ← decTake data p2 len
  .ok (.vstr .binary bs, p3)

/-- `decode_text_raw`: fast path for a short definite length (additional
info below 24, regardless of major type) reading the bytes in place, else
the generic head/count/take path; either way a UTF-8 string. -/
def decodeTextRaw (data : List Nat) (pos : Nat) : Except DErr (RVal × Nat) :=
  if pos < data.length ∧ data.getD pos 0 % 32 < 24 ∧
      pos + 1 + data.getD pos 0 % 32 ≤ data.length then
    let len := data.getD pos 0 % 32
    .ok (.vstr .utf8 ((data.drop (pos + 1)).take len), pos + 1 + len)
  else do
    let ((_mt, ai), p1) ← decReadInfo data pos
    let (len, p2) ← decReadCount data p1 ai
    let (bs, p3) ← decTake data p2 len
    .ok (.vstr .utf8 bs, p3)

/-- The inlined map-key decode of `decode_map_raw` / `decode_indef_map`:
a short definite-length text head (major 3, additional info below 24) whose
bytes are in range is read in place; everything else falls back to
`decode_text_raw` — never to the generic value decoder. -/
def decodeMapKey (data : List Nat) (pos : Nat) : Except DErr (RVal × Nat) :=
  if pos < data.length ∧ data.getD pos 0 / 32 = 3 ∧ data.getD pos 0 % 32 < 24 ∧
      pos + 1 + data.getD pos 0 % 32 ≤ data.length then
    let slen := data.getD pos 0 % 32
    .ok (.vstr .utf8 ((data.drop (pos + 1)).take slen), pos + 1 + slen)
  else decodeTextRaw data pos

/-- Ruby `eql?` on decoded map keys inside `rb_hash_aset`.  The decoder's
key path only ever produces strings, but the primitive kinds are modelled
for completeness; container keys cannot reach this comparison. -/
def keyEq : RVal → RVal → Bool
  | .vnil, .vnil => true
  | .vbool a, .vbool b => a = b
  | .vint a, .vint b => a = b
  | .vfloat a, .vfloat b => a = b
  | .vstr e1 b1, .vstr e2 b2 => e1 = e2 ∧ b1 = b2
  | .vsym a, .vsym b => a = b
  | _, _ => false

/-- `rb_hash_aset`: replace the value of an `eql?`-equal key in place, else
append the pair. -/
def hashAset (ps : List (RVal × RVal)) (k v : RVal) : List (RVal × RVal) :=
  if ps.any (fun p => keyEq p.1 k) then
    ps.map (fun p => if keyEq p.1 k then (p.1, v) else p)
  else ps ++ [(k, v)]

/-- The definite-length array loop of `decode_array_raw`: decode `n` items
with the given item decoder, pushing each onto the accumulator. -/
def defArrayLoop (dec : List Nat → Nat → Except DErr (RVal × Nat)) :
    Nat → List Nat → Nat → List RVal → Except DErr (List RVal × Nat)
  | 0, _, pos, acc => .ok (acc, pos)
  | n + 1, data, pos, acc => do
    let (v, p) ← dec data pos
    defArrayLoop dec n data p (acc ++ [v])

/-- The definite-length map loop of `decode_map_raw`: `n` times a key via
the inlined key path, then a value via the generic decoder, inserted with
`rb_hash_aset`. -/
def defMapLoop (dec : List Nat → Nat → Except DErr (RVal × Nat)) :
    Nat → List Nat → Nat → List (RVal × RVal) → Except DErr (List (RVal × RVal) × Nat)
  | 0, _, pos, acc => .ok (acc, pos)
  | n + 1, data, pos, acc => do
    let (k, p1) ← decodeMapKey data pos
    let (v, p2) ← dec data p1
    defMapLoop dec n data p2 (hashAset acc k v)

/-- The loop of `decode_indef_array`: items until a break byte.  The first
fuel argument only bounds the number of iterations; `data.length + 1` always
suffices because every decoded item consumes at least one byte. -/
def indefArrayLoop (dec : List Nat → Nat → Except DErr (RVal × Nat)) :
    Nat → List Nat → Nat → List RVal → Except DErr (List RVal × Nat)
  | 0, _, _, _ => .error .fuelExhausted
  | k + 1, data, pos, acc => do
    let b ← decPeek data pos
    if b = 0xff then .ok (acc, pos + 1)
    else do
      let (v, p) ← dec data pos
      indefArrayLoop dec k data p (acc ++ [v])

/-- The loop of `decode_indef_map`: key/value pairs until a break byte, keys
via the same inlined key path as the definite form. -/
def indefMapLoop (dec : List Nat → Nat → Except DErr (RVal × Nat)) :
    Nat → List Nat → Nat → List (RVal × RVal) → Except DErr (List (RVal × RVal) × Nat)
  | 0, _, _, _ => .error .fuelExhausted
  | k + 1, data, pos, acc => do
    let b ← decPeek data pos
    if b = 0xff then .ok (acc, pos + 1)
    else do
      let (kv, p1) ← decodeMapKey data pos
      let (v, p2) ← dec data p1
      indefMapLoop dec k data p2 (hashAset acc kv v)

/-- The chunk loop shared by `decode_indef_binary` and `decode_indef_text`:
definite-length chunks (head read with major ignored) concatenated until a
break byte. -/
def indefChunks : Nat → List Nat → Nat → List Nat → Except DErr (List Nat × Nat)
  | 0, _, _, _ => .error .fuelExhausted
  | k + 1, data, pos, acc => do
    let b ← decPeek data pos
    if b = 0xff then .ok (acc, pos + 1)
    else do
      let ((_mt, ai), p1) ← decReadInfo data pos
      let (len, p2) ← decReadCount data p1 ai
      let (bs, p3) ← decTake data p2 len
      indefChunks k data p3 (acc ++ bs)

/-- `decode_bignum_raw`: head (major NOT checked), count as byte length,
bytes folded big-endian; tag 2 gives the magnitude, tag 3 gives
`-1 - magnitude`. -/
def decodeBignumRaw (data : List Nat) (pos : Nat) (tag : Nat) :
    Except DErr (RVal × Nat) := do
  let ((_mt, ai), p1) ← decReadInfo data pos
  let (len, p2) ← decReadCount data p1 ai
  let (bs, p3) ← decTake data p2 len
  let val : Int := (beFold bs : Nat)
  if tag = 2 then .ok (.vint val, p3)
  else if tag = 3 then .ok (.vint (-1 - val), p3)
  else .error (.invalidBignumTag tag)

/-- `decode_bigdec_raw`: head (major NOT checked), count must be 2, then two
items decoded by `decode_integer_raw`, reconstructing `m * 10 ^ e`. -/
def decodeBigdecRaw (data : List Nat) (pos : Nat) : Except DErr (RVal × Nat) := do
  let ((_mt, ai), p1) ← decReadInfo data pos
  let (len, p2) ← decReadCount data p1 ai
  if len = 2 then do
    let (e, p3) ← decodeIntegerRaw data p2
    let (m, p4) ← decodeIntegerRaw data p3
    .ok (.vbigdec m e, p4)
  else .error (.bigdecLen len)

/-- `decode_half_raw`: skip the initial byte, take 2 bytes, reconstruct the
half-precision value (subnormal / infinity-NaN / normal branches). -/
def decodeHalfRaw (data : List Nat) (pos : Nat) : Except DErr (RVal × Nat) := do
  let (bs, p) ← decTake data (pos + 1) 2
  .ok (.vfloat (halfToF64 (beFold bs)), p)

/-- Can `Time.at` accept the decoded item?  (`Time.at` raises `TypeError`
for non-numeric arguments; the numeric kinds a decode can produce are
integers, floats and BigDecimals.) -/
def timeAtOk : RVal → Bool
  | .vint _ => true
  | .vfloat _ => true
  | .vbigdec _ _ => true
  | _ => false

/-- `decode_tag_raw`: read the tag via the count mechanism, then tag 1 wraps
the next value as a `Time`, tags 2/3 go to `decode_bignum_raw`, tag 4 to
`decode_bigdec_raw`, and anything else wraps the next value as `Tagged`. -/
def decodeTagRaw (dec : List Nat → Nat → Except DErr (RVal × Nat))
    (data : List Nat) (pos : Nat) : Except DErr (RVal × Nat) := do
  let ((_mt, ai), p1) ← decReadInfo data pos
  let (tag, p2) ← decReadCount data p1 ai
  if tag = 1 then do
    let (item, p3) ← dec data p2
    if timeAtOk item then .ok (.vtime item, p3) else .error .timeTypeError
  else if tag = 2 ∨ tag = 3 then decodeBignumRaw data p2 tag
  else if tag = 4 then decodeBigdecRaw data p2
  else do
    let (inner, p3) ← dec data p2
    .ok (.vtagged tag inner, p3)

/-- `decode_value`: dispatch on the major type (top 3 bits) and additional
information (low 5 bits) of the byte at the cursor.  The fuel decreases by
one per value-nesting level; the top-level entry points pass
`data.length + 1`, which always suffices since every level consumes at
least one byte of input.  The final `unreachableMajor` branch mirrors the
`unreachable!` arm of the Rust match (impossible for `u8` input, i.e. for
byte values below 256). -/
def decodeValue : Nat → List Nat → Nat → Except DErr (RVal × Nat)
  | 0, _, _ => .error .fuelExhausted
  | fuel + 1, data, pos =>
    if pos < data.length then
      let ib := data.getD pos 0
      let major := ib / 32
      let ai := ib % 32
      if major = 0 then
        if ai < 24 then .ok (.vint (ai : Int), pos + 1)
        else do
          let (n, p) ← decodeIntegerRaw data pos
          .ok (.vint n, p)
      else if major = 1 then
        if ai < 24 then .ok (.vint (-1 - (ai : Int)), pos + 1)
        else do
          let (n, p) ← decodeIntegerRaw data pos
          .ok (.vint n, p)
      else if major = 2 then
        if ai = 31 then do
          let (bs, p) ← indefChunks (data.length + 1) data (pos + 1) []
          .ok (.vstr .binary bs, p)
        else decodeBinaryRaw data pos
      else if major = 3 then
        if ai = 31 then do
          let (bs, p) ← indefChunks (data.length + 1) data (pos + 1) []
          .ok (.vstr .utf8 bs, p)
        else decodeTextRaw data pos
      else if major = 4 then
        if ai = 31 then do
          let (xs, p) ← indefArrayLoop (decodeValue fuel) (data.length + 1) data (pos + 1) []
          .ok (.varr xs, p)
        else do
          let ((_mt, ai2), p1) ← decReadInfo data pos
          let (n, p2) ← decReadCount data p1 ai2
          let (xs, p3) ← defArrayLoop (decodeValue fuel) n data p2 []
          .ok (.varr xs, p3)
      else if major = 5 then
        if ai = 31 then do
          let (ps, p) ← indefMapLoop (decodeValue fuel) (data.length + 1) data (pos + 1) []
          .ok (.vmap ps, p)
        else do
          let ((_mt, ai2), p1) ← decReadInfo data pos
          let (n, p2) ← decReadCount data p1 ai2
          let (ps, p3) ← defMapLoop (decodeValue fuel) n data p2 []
          .ok (.vmap ps, p3)
      else if major = 6 then decodeTagRaw (decodeValue fuel) data pos
      else if major = 7 then
        if ai = 20 then .ok (.vbool false, pos + 1)
        else if ai = 21 then .ok (.vbool true, pos + 1)
        else if ai = 22 then .ok (.vnil, pos + 1)
        else if ai = 23 then .ok (.vsym undefinedName, pos + 1)
        else if ai = 25 then decodeHalfRaw data pos
        else if ai = 26 then
          if pos + 1 + 4 ≤ data.length then
            .ok (.vfloat (f32ToF64 (beFold ((data.drop (pos + 1)).take 4))), pos + 1 + 4)
          else .error (.outOfBytes 4 ((data.length : Int) - (pos + 1)))
        else if ai = 27 then
          if pos + 1 + 8 ≤ data.length then
            .ok (.vfloat (beFold ((data.drop (pos + 1)).take 8)), pos + 1 + 8)
          else .error (.outOfBytes 8 ((data.length : Int) - (pos + 1)))
        else if ai = 31 then .error .unexpectedBreak
        else .error (.reservedInfo ai)
      else .error (.reservedInfo ai)
    else .error (.outOfBytes 1 ((data.length : Int) - pos))

/-- Module-level `AwsCrt::Cbor.decode`: decode one value from position 0 and
fail with `ExtraBytesError` if bytes remain. -/
def rbDecode (data : List Nat) : Except DErr RVal :=
  match decodeValue (data.length + 1) data 0 with
  | .error e => .error e
  | .ok (v, pos) =>
      if pos < data.length then .error (.extraBytes (data.length - pos))
      else .ok v

/-- The stateful `Decoder#decode`: decode one value at the current cursor.
On a decode error the early return leaves the cursor untouched; on success
the cursor is committed first and only then the trailing-bytes check may
raise `ExtraBytesError`. -/
def decoderDecode (data : List Nat) (pos : Nat) : Except DErr RVal × Nat :=
  match decodeValue (data.length + 1) data pos with
  | .error e => (.error e, pos)
  | .ok (v, p) =>
      if p < data.length then (.error (.extraBytes (data.length - p)), p)
      else (.ok v, p)

/-! ## Well-formedness

`good fuel v` singles out the values C1 quantifies over: the value kinds the
spec lists as representable (no symbols, times, decimals or unmappable
objects), floats with a valid non-NaN binary64 pattern, tags below `2 ^ 64`
that are not the built-in tags 1-4, string/array/map lengths below `2 ^ 64`
(`len as u64` is exact there; in Ruby these lengths are `long`s, so this
always holds), bignum magnitudes whose byte strings have length below
`2 ^ 64`, byte contents below 256, and maps whose keys are UTF-8 text
strings, pairwise distinct under `eql?`.  The fuel decreases in lockstep
with `encodeInto`'s. -/

/-- Is the value a UTF-8 text string (the only key kind the decoder's map
path reproduces)? -/
def isTextKey : RVal → Bool
  | .vstr .utf8 _ => true
  | _ => false

/-- No two keys `eql?`-equal. -/
def nodupKeys : List RVal → Bool
  | [] => true
  | k :: tl => tl.all (fun k2 => !keyEq k k2) && nodupKeys tl

/-- The `good` predicate described in the section header. -/
def good : Nat → RVal → Bool
  | 0, _ => false
  | fuel + 1, v =>
    match v with
    | .vnil => true
    | .vbool _ => true
    | .vint n =>
        if 2 ^ 64 ≤ n then decide ((magBytes n.toNat).length < 2 ^ 64)
        else if n < -(2 ^ 63) then decide ((magBytes (-1 - n).toNat).length < 2 ^ 64)
        else true
    | .vfloat b => decide (b < 2 ^ 64) && !isNan64 b
    | .vstr _ bs => decide (bs.length < 2 ^ 64) && bs.all (fun b => decide (b < 256))
    | .varr xs => decide (xs.length < 2 ^ 64) && xs.all (good fuel)
    | .vmap ps =>
        decide (ps.length < 2 ^ 64) &&
          ps.all (fun kv => isTextKey kv.1 && good fuel kv.1 && good fuel kv.2) &&
          nodupKeys (ps.map Prod.fst)
    | .vtagged t v2 =>
        decide (t < 2 ^ 64) && !decide (t = 1) && !decide (t = 2) &&
          !decide (t = 3) && !decide (t = 4) && good fuel v2
    | _ => false

/-! ## The net bytes of a successful encode

`cborEnc v` is the byte sequence `encode_value` appends to the buffer when
it succeeds; the lemma `encodeInto_spec` below proves that on `good` values
`encodeInto` appends exactly these bytes and reports no error. -/

mutual

/-- Net encoded bytes of one value (on values `encode_value` accepts). -/
def cborEnc : RVal → List Nat
  | .vnil => writeHead 0xe0 22
  | .vbool true => writeHead 0xe0 21
  | .vbool false => writeHead 0xe0 20
  | .vint n =>
      if -(2 ^ 63) ≤ n ∧ n < 2 ^ 63 then encodeInteger n
      else if 0 ≤ n ∧ n < 2 ^ 64 then writeHead 0x00 n.toNat
      else
        let mag := if n < 0 then (-1 - n).toNat else n.toNat
        let mb := magBytes mag
        writeHead 0xc0 (if n < 0 then 3 else 2) ++
          writeHead 0x40 (mb.length % 2 ^ 64) ++ mb
  | .vfloat b => encodeAutoFloat b
  | .vstr .binary bs => writeHead 0x40 (bs.length % 2 ^ 64) ++ bs
  | .vstr .utf8 bs => writeHead 0x60 (bs.length % 2 ^ 64) ++ bs
  | .vsym name => writeHead 0x60 (name.length % 2 ^ 64) ++ name
  | .varr xs => writeHead 0x80 (xs.length % 2 ^ 64) ++ cborEncList xs
  | .vmap ps => writeHead 0xa0 (ps.length % 2 ^ 64) ++ cborEncPairs ps
  | .vtagged t v2 => writeHead 0xc0 (t % 2 ^ 64) ++ cborEnc v2
  | .vtime v2 => writeHead 0xc0 1 ++ encodeDouble (timeToF64 v2)
  | .vbigdec m e =>
      let me := stripTens m.natAbs m e
      writeHead 0xc0 4 ++ writeHead 0x80 2 ++ encodeInteger me.2 ++ encodeInteger me.1
  | .vunsupported => []

/-- Net encoded bytes of a list of array elements. -/
def cborEncList : List RVal → List Nat
  | [] => []
  | x :: tl => cborEnc x ++ cborEncList tl

/-- Net encoded bytes of a list of map pairs. -/
def cborEncPairs : List (RVal × RVal) → List Nat
  | [] => []
  | kv :: tl => cborEnc kv.1 ++ cborEnc kv.2 ++ cborEncPairs tl

end

/-! ## Arithmetic and byte-sequence lemmas -/

theorem log2F_eq (f n : Nat) (h : n ≤ f) : log2F f n = Nat.log2 n := by
  induction f generalizing n with
  | zero =>
    have hn : n = 0 := by omega
    subst hn
    simp [log2F, Nat.log2]
  | succ k ih =>
    rw [log2F, Nat.log2]
    by_cases h2 : 2 ≤ n
    · have hle : n / 2 ≤ k := by omega
      simp [show ¬ n ≤ 1 by omega, h2, ih _ hle]
    · simp [show n ≤ 1 by omega, h2]

theorem nlog2_eq (n : Nat) : nlog2 n = Nat.log2 n :=
  log2F_eq n n le_rfl

theorem natToBE_length (k v : Nat) : (natToBE k v).length = k := by
  induction k generalizing v with
  | zero => simp [natToBE]
  | succ k ih => simp [natToBE, ih]

theorem beFold_eq_foldl (a : Nat) (l : List Nat) :
    l.foldl (fun x b => x * 256 + b) a = a * 256 ^ l.length + beFold l := by
  induction l generalizing a with
  | nil => simp [beFold]
  | cons b tl ih =>
    show tl.foldl _ (a * 256 + b) = _
    rw [ih (a * 256 + b)]
    have hb : beFold (b :: tl) = b * 256 ^ tl.length + beFold tl := by
      show tl.foldl _ (0 * 256 + b) = _
      rw [ih (0 * 256 + b)]
      ring
    rw [hb]
    simp [List.length_cons, pow_succ]
    ring

theorem beFold_append (l1 l2 : List Nat) :
    beFold (l1 ++ l2) = beFold l1 * 256 ^ l2.length + beFold l2 := by
  unfold beFold
  rw [List.foldl_append, beFold_eq_foldl]
  rfl

theorem beFold_natToBE (k v : Nat) (h : v < 256 ^ k) : beFold (natToBE k v) = v := by
  induction k generalizing v with
  | zero =>
    have : v = 0 := by simpa using h
    simp [this, natToBE, beFold]
  | succ k ih =>
    have hdiv : v / 256 < 256 ^ k := by
      rw [Nat.div_lt_iff_lt_mul (by norm_num)]
      calc v < 256 ^ (k + 1) := h
        _ = 256 ^ k * 256 := by rw [pow_succ]
    rw [natToBE, beFold_append, ih _ hdiv]
    have : beFold [v % 256] = v % 256 := by simp [beFold]
    rw [this]
    simp
    omega

theorem natToBE_eq_map (k v : Nat) :
    natToBE k v = ((List.range k).reverse).map (fun i => v / 256 ^ i % 256) := by
  induction k generalizing v with
  | zero => simp [natToBE]
  | succ k ih =>
    rw [natToBE, ih, List.range_succ_eq_map]
    simp [List.map_reverse, List.map_map, Function.comp]
    intro a _
    rw [Nat.div_div_eq_div_mul, ← pow_succ']

theorem magBytes_eq (m : Nat) :
    magBytes m = natToBE ((rubyBitLength m + 7) / 8) m := by
  rw [natToBE_eq_map, magBytes]
  congr 1
  funext i
  congr 1
  rw [pow_mul]
  norm_num

theorem lt_pow_byteCount (m : Nat) : m < 256 ^ ((rubyBitLength m + 7) / 8) := by
  rcases Nat.eq_zero_or_pos m with h0 | hpos
  · subst h0
    simp [rubyBitLength]
  · have hbl : rubyBitLength m = Nat.log2 m + 1 := by
      simp [rubyBitLength, nlog2_eq, Nat.pos_iff_ne_zero.mp hpos]
    have hm : m < 2 ^ (Nat.log2 m + 1) := Nat.lt_log2_self
    have hle : Nat.log2 m + 1 ≤ 8 * ((rubyBitLength m + 7) / 8) := by omega
    calc m < 2 ^ (Nat.log2 m + 1) := hm
      _ ≤ 2 ^ (8 * ((rubyBitLength m + 7) / 8)) := Nat.pow_le_pow_right (by norm_num) hle
      _ = 256 ^ ((rubyBitLength m + 7) / 8) := by
          rw [pow_mul]
          norm_num

theorem beFold_magBytes (m : Nat) : beFold (magBytes m) = m := by
  rw [magBytes_eq]
  exact beFold_natToBE _ _ (lt_pow_byteCount m)

theorem magBytes_length (m : Nat) :
    (magBytes m).length = (rubyBitLength m + 7) / 8 := by
  rw [magBytes_eq, natToBE_length]

/-! ## Reading back a head -/

/-- The additional-information value `write_head` puts in the first byte. -/
def headAI (v : Nat) : Nat :=
  if v ≤ 23 then v
  else if v ≤ 0xff then 24
  else if v ≤ 0xffff then 25
  else if v ≤ 0xffffffff then 26
  else 27

theorem headAI_le (v : Nat) : headAI v ≤ 27 := by
  unfold headAI
  split_ifs <;> omega

theorem writeHead_eq_cons (M v : Nat) :
    writeHead M v = (M + headAI v) ::
      (if v ≤ 23 then []
       else if v ≤ 0xff then [v]
       else if v ≤ 0xffff then natToBE 2 v
       else if v ≤ 0xffffffff then natToBE 4 v
       else natToBE 8 v) := by
  unfold writeHead headAI
  split_ifs <;> rfl

theorem writeHead_length (M v : Nat) :
    (writeHead M v).length =
      (if v ≤ 23 then 1
       else if v ≤ 0xff then 2
       else if v ≤ 0xffff then 3
       else if v ≤ 0xffffffff then 5
       else 9) := by
  unfold writeHead
  split_ifs <;> simp [natToBE_length]

theorem writeHead_length_pos (M v : Nat) : 1 ≤ (writeHead M v).length := by
  rw [writeHead_length]
  split_ifs <;> omega

theorem decTake_append (pre mid post : List Nat) (n : Nat) (h : mid.length = n) :
    decTake (pre ++ mid ++ post) pre.length n = .ok (mid, pre.length + n) := by
  unfold decTake
  have hle : pre.length + n ≤ (pre ++ mid ++ post).length := by
    simp [List.length_append]
    omega
  rw [if_pos hle]
  congr 1
  rw [List.append_assoc, List.drop_left]
  subst h
  rw [List.take_left]

theorem decReadInfo_append (pre post : List Nat) (b : Nat) :
    decReadInfo (pre ++ b :: post) pre.length = .ok ((b / 32, b % 32), pre.length + 1) := by
  unfold decReadInfo
  have h1 : decTake (pre ++ b :: post) pre.length 1 = .ok ([b], pre.length + 1) := by
    have := decTake_append pre [b] post 1 (by simp)
    simpa using this
  rw [h1]
  rfl

theorem getD_append_self (pre : List Nat) (b : Nat) (post : List Nat) :
    (pre ++ b :: post).getD pre.length 0 = b := by
  rw [List.getD_append_right _ _ _ _ le_rfl]
  simp

/-- Reading the head written by `write_head`: `dec_read_info` returns the
major and the additional information, and `dec_read_count` run on that
additional information returns the original value, leaving the cursor right
after the head. -/
theorem decHead (m v : Nat) (_hm : m < 8) (hv : v < 2 ^ 64) (pre post : List Nat) :
    (pre ++ writeHead (32 * m) v ++ post).getD pre.length 0 = 32 * m + headAI v ∧
    decReadInfo (pre ++ writeHead (32 * m) v ++ post) pre.length =
      .ok ((m, headAI v), pre.length + 1) ∧
    decReadCount (pre ++ writeHead (32 * m) v ++ post) (pre.length + 1) (headAI v) =
      .ok (v, pre.length + (writeHead (32 * m) v).length) := by
  have hai := headAI_le v
  have hdiv : (32 * m + headAI v) / 32 = m := by omega
  have hmod : (32 * m + headAI v) % 32 = headAI v := by omega
  rw [writeHead_eq_cons]
  by_cases h23 : v ≤ 23
  · simp only [headAI, if_pos h23] at *
    refine ⟨by simpa using getD_append_self pre (32 * m + v) post, ?_, ?_⟩
    · have := decReadInfo_append pre post (32 * m + v)
      simp only [List.append_assoc, List.cons_append, List.nil_append] at this ⊢
      rw [this, hdiv, hmod]
    · unfold decReadCount
      rw [if_pos h23]
      simp
  · by_cases h255 : v ≤ 0xff
    · simp only [headAI, if_neg h23, if_pos h255] at *
      constructor
      · simpa using getD_append_self pre (32 * m + 24) (v :: post)
      constructor
      · have := decReadInfo_append pre (v :: post) (32 * m + 24)
        simp only [List.append_assoc, List.cons_append, List.nil_append] at this ⊢
        rw [this, hdiv, hmod]
      · unfold decReadCount
        rw [if_neg (by omega), if_pos rfl]
        have h1 : decTake (pre ++ (32 * m + 24) :: v :: post) (pre.length + 1) 1 =
            .ok ([v], pre.length + 2) := by
          have := decTake_append (pre ++ [32 * m + 24]) [v] post 1 (by simp)
          simpa [List.append_assoc] using this
        simp only [List.append_assoc, List.cons_append, List.nil_append] at h1 ⊢
        rw [h1]
        rfl
    · by_cases h2b : v ≤ 0xffff
      · simp only [headAI, if_neg h23, if_neg h255, if_pos h2b] at *
        constructor
        · simpa using getD_append_self pre (32 * m + 25) (natToBE 2 v ++ post)
        constructor
        · have := decReadInfo_append pre (natToBE 2 v ++ post) (32 * m + 25)
          simp only [List.append_assoc, List.cons_append, List.nil_append] at this ⊢
          rw [this, hdiv, hmod]
        · unfold decReadCount
          rw [if_neg (by omega), if_neg (by omega), if_pos rfl]
          have h1 : decTake (pre ++ (32 * m + 25) :: (natToBE 2 v ++ post)) (pre.length + 1) 2 =
              .ok (natToBE 2 v, pre.length + 3) := by
            have := decTake_append (pre ++ [32 * m + 25]) (natToBE 2 v) post 2 (natToBE_length 2 v)
            simpa [List.append_assoc] using this
          simp only [List.append_assoc, List.cons_append, List.nil_append] at h1 ⊢
          rw [h1]
          show Except.ok (beFold (natToBE 2 v), pre.length + 3) = _
          rw [beFold_natToBE 2 v (by norm_num; omega)]
          simp [natToBE_length]
      · by_cases h4b : v ≤ 0xffffffff
        · simp only [headAI, if_neg h23, if_neg h255, if_neg h2b, if_pos h4b] at *
          constructor
          · simpa using getD_append_self pre (32 * m + 26) (natToBE 4 v ++ post)
          constructor
          · have := decReadInfo_append pre (natToBE 4 v ++ post) (32 * m + 26)
            simp only [List.append_assoc, List.cons_append, List.nil_append] at this ⊢
            rw [this, hdiv, hmod]
          · unfold decReadCount
            rw [if_neg (by omega), if_neg (by omega), if_neg (by omega), if_pos rfl]
            have h1 : decTake (pre ++ (32 * m + 26) :: (natToBE 4 v ++ post)) (pre.length + 1) 4 =
                .ok (natToBE 4 v, pre.length + 5) := by
              have := decTake_append (pre ++ [32 * m + 26]) (natToBE 4 v) post 4 (natToBE_length 4 v)
              simpa [List.append_assoc] using this
            simp only [List.append_assoc, List.cons_append, List.nil_append] at h1 ⊢
            rw [h1]
            show Except.ok (beFold (natToBE 4 v), pre.length + 5) = _
            rw [beFold_natToBE 4 v (by norm_num; omega)]
            simp [natToBE_length]
        · simp only [headAI, if_neg h23, if_neg h255, if_neg h2b, if_neg h4b] at *
          constructor
          · simpa using getD_append_self pre (32 * m + 27) (natToBE 8 v ++ post)
          constructor
          · have := decReadInfo_append pre (natToBE 8 v ++ post) (32 * m + 27)
            simp only [List.append_assoc, List.cons_append, List.nil_append] at this ⊢
            rw [this, hdiv, hmod]
          · unfold decReadCount
            rw [if_neg (by omega), if_neg (by omega), if_neg (by omega), if_neg (by omega),
              if_pos rfl]
            have h1 : decTake (pre ++ (32 * m + 27) :: (natToBE 8 v ++ post)) (pre.length + 1) 8 =
                .ok (natToBE 8 v, pre.length + 9) := by
              have := decTake_append (pre ++ [32 * m + 27]) (natToBE 8 v) post 8 (natToBE_length 8 v)
              simpa [List.append_assoc] using this
            simp only [List.append_assoc, List.cons_append, List.nil_append] at h1 ⊢
            rw [h1]
            show Except.ok (beFold (natToBE 8 v), pre.length + 9) = _
            rw [beFold_natToBE 8 v (by norm_num; omega)]
            simp [natToBE_length]

/-! ## The encoder only appends

`encode_value` only ever pushes bytes onto the buffer, so running it on a
buffer `buf` yields `buf` followed by exactly the bytes it would produce on
an empty buffer, with the same error — also when it fails halfway through a
container. -/

/-- The fold step for array elements in `encodeInto`. -/
def encArrStep (fuel : Nat) (st : List Nat × Option EncErr) (x : RVal) :
    List Nat × Option EncErr :=
  match st with
  | (b, none) => encodeInto fuel b x
  | st => st

/-- The fold step for map pairs in `encodeInto`. -/
def encMapStep (fuel : Nat) (st : List Nat × Option EncErr) (kv : RVal × RVal) :
    List Nat × Option EncErr :=
  match st with
  | (b, none) =>
      match encodeInto fuel b kv.1 with
      | (b2, none) => encodeInto fuel b2 kv.2
      | r => r
  | st => st

theorem encodeInto_arr (fuel : Nat) (buf : List Nat) (xs : List RVal) :
    encodeInto (fuel + 1) buf (.varr xs) =
      xs.foldl (encArrStep fuel) (buf ++ writeHead 0x80 (xs.length % 2 ^ 64), none) := rfl

theorem encodeInto_map (fuel : Nat) (buf : List Nat) (ps : List (RVal × RVal)) :
    encodeInto (fuel + 1) buf (.vmap ps) =
      ps.foldl (encMapStep fuel) (buf ++ writeHead 0xa0 (ps.length % 2 ^ 64), none) := rfl

theorem encArr_fold_shift (fuel : Nat)
    (IH : ∀ v buf, encodeInto fuel buf v =
      (buf ++ (encodeInto fuel [] v).1, (encodeInto fuel [] v).2))
    (xs : List RVal) :
    ∀ (p b : List Nat) (e : Option EncErr),
      xs.foldl (encArrStep fuel) (p ++ b, e) =
        (p ++ (xs.foldl (encArrStep fuel) (b, e)).1,
         (xs.foldl (encArrStep fuel) (b, e)).2) := by
  induction xs with
  | nil => intro p b e; simp
  | cons x tl ih =>
    intro p b e
    cases e with
    | some err =>
      show tl.foldl (encArrStep fuel) (p ++ b, some err) = _
      have hR : (x :: tl).foldl (encArrStep fuel) (b, some err) =
          tl.foldl (encArrStep fuel) (b, some err) := rfl
      rw [hR, ih p b (some err)]
    | none =>
      have hL : (x :: tl).foldl (encArrStep fuel) (p ++ b, none) =
          tl.foldl (encArrStep fuel) (encodeInto fuel (p ++ b) x) := rfl
      have hR : (x :: tl).foldl (encArrStep fuel) (b, none) =
          tl.foldl (encArrStep fuel) (encodeInto fuel b x) := rfl
      rw [hL, hR, IH x (p ++ b), IH x b, List.append_assoc,
        ih p (b ++ (encodeInto fuel [] x).1) (encodeInto fuel [] x).2]

theorem encMap_fold_shift (fuel : Nat)
    (IH : ∀ v buf, encodeInto fuel buf v =
      (buf ++ (encodeInto fuel [] v).1, (encodeInto fuel [] v).2))
    (ps : List (RVal × RVal)) :
    ∀ (p b : List Nat) (e : Option EncErr),
      ps.foldl (encMapStep fuel) (p ++ b, e) =
        (p ++ (ps.foldl (encMapStep fuel) (b, e)).1,
         (ps.foldl (encMapStep fuel) (b, e)).2) := by
  induction ps with
  | nil => intro p b e; simp
  | cons kv tl ih =>
    intro p b e
    cases e with
    | some err =>
      show tl.foldl (encMapStep fuel) (p ++ b, some err) = _
      have hR : (kv :: tl).foldl (encMapStep fuel) (b, some err) =
          tl.foldl (encMapStep fuel) (b, some err) := rfl
      rw [hR, ih p b (some err)]
    | none =>
      have hstep : encMapStep fuel (p ++ b, none) kv =
          (p ++ (encMapStep fuel (b, none) kv).1, (encMapStep fuel (b, none) kv).2) := by
        have hRB : encMapStep fuel (b, none) kv =
            (match encodeInto fuel b kv.1 with
             | (b2, none) => encodeInto fuel b2 kv.2
             | r => r) := rfl
        show (match encodeInto fuel (p ++ b) kv.1 with
              | (b2, none) => encodeInto fuel b2 kv.2
              | r => r) = _
        rw [hRB, IH kv.1 (p ++ b), IH kv.1 b]
        cases hk : (encodeInto fuel [] kv.1).2 with
        | some err => simp [hk, List.append_assoc]
        | none =>
          simp only [hk]
          rw [IH kv.2 (p ++ b ++ (encodeInto fuel [] kv.1).1),
            IH kv.2 (b ++ (encodeInto fuel [] kv.1).1)]
          simp [List.append_assoc]
      have hL : (kv :: tl).foldl (encMapStep fuel) (p ++ b, none) =
          tl.foldl (encMapStep fuel) (encMapStep fuel (p ++ b, none) kv) := rfl
      have hR : (kv :: tl).foldl (encMapStep fuel) (b, none) =
          tl.foldl (encMapStep fuel) (encMapStep fuel (b, none) kv) := rfl
      rw [hL, hR, hstep]
      rcases hs : encMapStep fuel (b, none) kv with ⟨b2, e2⟩
      exact ih p b2 e2

/-- `encode_value` appends: the final buffer is the initial buffer followed
by the bytes the same call produces on an empty buffer, and the error does
not depend on the initial buffer. -/
theorem encodeInto_append (fuel : Nat) (v : RVal) (buf : List Nat) :
    encodeInto fuel buf v = (buf ++ (encodeInto fuel [] v).1, (encodeInto fuel [] v).2) := by
  induction fuel generalizing v buf with
  | zero => simp [encodeInto]
  | succ fuel ih =>
    cases v with
    | vnil => simp [encodeInto]
    | vbool b => cases b <;> simp [encodeInto]
    | vint n =>
      simp only [encodeInto]
      split_ifs <;> simp
    | vfloat b => simp [encodeInto]
    | vstr enc bs => cases enc <;> simp [encodeInto]
    | vsym name => simp [encodeInto]
    | varr xs =>
      rw [encodeInto_arr, encodeInto_arr]
      have := encArr_fold_shift fuel ih xs buf (writeHead 0x80 (xs.length % 2 ^ 64)) none
      simpa using this
    | vmap ps =>
      rw [encodeInto_map, encodeInto_map]
      have := encMap_fold_shift fuel ih ps buf (writeHead 0xa0 (ps.length % 2 ^ 64)) none
      simpa using this
    | vtagged t inner =>
      show encodeInto fuel (buf ++ writeHead 0xc0 (t % 2 ^ 64)) inner = _
      rw [ih inner (buf ++ writeHead 0xc0 (t % 2 ^ 64))]
      show _ = (buf ++ (encodeInto fuel ([] ++ writeHead 0xc0 (t % 2 ^ 64)) inner).1,
        (encodeInto fuel ([] ++ writeHead 0xc0 (t % 2 ^ 64)) inner).2)
      rw [ih inner ([] ++ writeHead 0xc0 (t % 2 ^ 64))]
      simp [List.append_assoc]
    | vtime inner => simp [encodeInto]
    | vbigdec m e => simp [encodeInto]
    | vunsupported => simp [encodeInto]

/-! ## Successful encodes produce `cborEnc` -/

theorem encArr_fold_spec (fuel : Nat) (xs : List RVal)
    (IH : ∀ x ∈ xs, ∀ buf, encodeInto fuel buf x = (buf ++ cborEnc x, none)) :
    ∀ b : List Nat, xs.foldl (encArrStep fuel) (b, none) = (b ++ cborEncList xs, none) := by
  induction xs with
  | nil => intro b; simp [cborEncList]
  | cons x tl ih =>
    intro b
    have hL : (x :: tl).foldl (encArrStep fuel) (b, none) =
        tl.foldl (encArrStep fuel) (encodeInto fuel b x) := rfl
    rw [hL, IH x (by simp)]
    rw [ih (fun y hy buf => IH y (by simp [hy]) buf) (b ++ cborEnc x)]
    simp [cborEncList, List.append_assoc]

theorem encMap_fold_spec (fuel : Nat) (ps : List (RVal × RVal))
    (IH : ∀ kv ∈ ps, (∀ buf, encodeInto fuel buf kv.1 = (buf ++ cborEnc kv.1, none)) ∧
      ∀ buf, encodeInto fuel buf kv.2 = (buf ++ cborEnc kv.2, none)) :
    ∀ b : List Nat, ps.foldl (encMapStep fuel) (b, none) = (b ++ cborEncPairs ps, none) := by
  induction ps with
  | nil => intro b; simp [cborEncPairs]
  | cons kv tl ih =>
    intro b
    have hL : (kv :: tl).foldl (encMapStep fuel) (b, none) =
        tl.foldl (encMapStep fuel) (encMapStep fuel (b, none) kv) := rfl
    have hstep : encMapStep fuel (b, none) kv = (b ++ cborEnc kv.1 ++ cborEnc kv.2, none) := by
      show (match encodeInto fuel b kv.1 with
            | (b2, none) => encodeInto fuel b2 kv.2
            | r => r) = _
      rw [(IH kv (by simp)).1 b]
      simp only
      rw [(IH kv (by simp)).2 (b ++ cborEnc kv.1)]
    rw [hL, hstep]
    rw [ih (fun y hy => IH y (by simp [hy])) (b ++ cborEnc kv.1 ++ cborEnc kv.2)]
    simp [cborEncPairs, List.append_assoc]

/-- On `good` values, `encode_value` succeeds and appends exactly
`cborEnc v` to the buffer. -/
theorem encodeInto_spec (fuel : Nat) (v : RVal) (h : good fuel v = true) (buf : List Nat) :
    encodeInto fuel buf v = (buf ++ cborEnc v, none) := by
  induction fuel generalizing v buf with
  | zero => simp [good] at h
  | succ fuel ih =>
    cases v with
    | vnil => simp [encodeInto, cborEnc]
    | vbool b => cases b <;> simp [encodeInto, cborEnc]
    | vint n =>
      simp only [encodeInto, cborEnc]
      split_ifs <;> simp [List.append_assoc]
    | vfloat b => simp [encodeInto, cborEnc]
    | vstr enc bs => cases enc <;> simp [encodeInto, cborEnc]
    | vsym name => simp [good] at h
    | varr xs =>
      simp only [good, Bool.and_eq_true, decide_eq_true_eq, List.all_eq_true] at h
      rw [encodeInto_arr]
      rw [encArr_fold_spec fuel xs (fun x hx buf => ih x (h.2 x hx) buf)
        (buf ++ writeHead 0x80 (xs.length % 2 ^ 64))]
      simp [cborEnc, List.append_assoc]
    | vmap ps =>
      simp only [good, Bool.and_eq_true, decide_eq_true_eq, List.all_eq_true] at h
      rw [encodeInto_map]
      rw [encMap_fold_spec fuel ps (fun kv hkv =>
        ⟨fun buf => ih kv.1 (h.1.2 kv hkv).1.2 buf, fun buf => ih kv.2 (h.1.2 kv hkv).2 buf⟩)
        (buf ++ writeHead 0xa0 (ps.length % 2 ^ 64))]
      simp [cborEnc, List.append_assoc]
    | vtagged t inner =>
      simp only [good, Bool.and_eq_true, decide_eq_true_eq, Bool.not_eq_true',
        decide_eq_false_iff_not] at h
      show encodeInto fuel (buf ++ writeHead 0xc0 (t % 2 ^ 64)) inner = _
      rw [ih inner h.2 (buf ++ writeHead 0xc0 (t % 2 ^ 64))]
      simp [cborEnc, List.append_assoc]
    | vtime inner => simp [good] at h
    | vbigdec m e => simp [good] at h
    | vunsupported => simp [good] at h

/-! ## The cursor never leaves the buffer

Every successful read ends with the cursor at most at `data.length`; this is
the substance of the stateful Decoder's safety and of the "full consumption"
reading of the module-level decode. -/

theorem ok_bind {α β : Type} (a : α) (f : α → Except DErr β) :
    (Except.ok a >>= f) = f a := rfl

theorem error_bind {α β : Type} (e : DErr) (f : α → Except DErr β) :
    ((Except.error e : Except DErr α) >>= f) = .error e := rfl

theorem decTake_ok {data : List Nat} {pos n : Nat} {bs : List Nat} {p1 : Nat}
    (h : decTake data pos n = .ok (bs, p1)) :
    p1 = pos + n ∧ pos + n ≤ data.length := by
  unfold decTake at h
  split_ifs at h with hc
  · simp only [Except.ok.injEq, Prod.mk.injEq] at h
    exact ⟨h.2.symm, hc⟩

theorem decReadInfo_ok {data : List Nat} {pos : Nat} {ma : Nat × Nat} {p1 : Nat}
    (h : decReadInfo data pos = .ok (ma, p1)) :
    p1 = pos + 1 ∧ pos + 1 ≤ data.length := by
  unfold decReadInfo at h
  cases ht : decTake data pos 1 with
  | error e => rw [ht, error_bind] at h; simp at h
  | ok r =>
    obtain ⟨bs, p⟩ := r
    rw [ht, ok_bind] at h
    simp only [Except.ok.injEq, Prod.mk.injEq] at h
    obtain ⟨h1, h2⟩ := decTake_ok ht
    exact ⟨h.2.symm.trans h1, by omega⟩

theorem decReadCount_ok {data : List Nat} {pos ai : Nat} {v p1 : Nat}
    (hpos : pos ≤ data.length)
    (h : decReadCount data pos ai = .ok (v, p1)) :
    pos ≤ p1 ∧ p1 ≤ data.length := by
  unfold decReadCount at h
  split_ifs at h with h23 h24 h25 h26 h27
  · simp only [Except.ok.injEq, Prod.mk.injEq] at h
    omega
  · cases ht : decTake data pos 1 with
    | error e => rw [ht, error_bind] at h; simp at h
    | ok r =>
      obtain ⟨bs, p⟩ := r
      rw [ht, ok_bind] at h
      simp only [Except.ok.injEq, Prod.mk.injEq] at h
      obtain ⟨h1, h2⟩ := decTake_ok ht
      omega
  · cases ht : decTake data pos 2 with
    | error e => rw [ht, error_bind] at h; simp at h
    | ok r =>
      obtain ⟨bs, p⟩ := r
      rw [ht, ok_bind] at h
      simp only [Except.ok.injEq, Prod.mk.injEq] at h
      obtain ⟨h1, h2⟩ := decTake_ok ht
      omega
  · cases ht : decTake data pos 4 with
    | error e => rw [ht, error_bind] at h; simp at h
    | ok r =>
      obtain ⟨bs, p⟩ := r
      rw [ht, ok_bind] at h
      simp only [Except.ok.injEq, Prod.mk.injEq] at h
      obtain ⟨h1, h2⟩ := decTake_ok ht
      omega
  · cases ht : decTake data pos 8 with
    | error e => rw [ht, error_bind] at h; simp at h
    | ok r =>
      obtain ⟨bs, p⟩ := r
      rw [ht, ok_bind] at h
      simp only [Except.ok.injEq, Prod.mk.injEq] at h
      obtain ⟨h1, h2⟩ := decTake_ok ht
      omega

theorem decodeIntegerRaw_le {data : List Nat} {pos : Nat} {n : Int} {p2 : Nat}
    (h : decodeIntegerRaw data pos = .ok (n, p2)) : p2 ≤ data.length := by
  unfold decodeIntegerRaw at h
  cases hri : decReadInfo data pos with
  | error e => rw [hri] at h; simp only [error_bind] at h; simp at h
  | ok r =>
    obtain ⟨⟨major, ai⟩, p1⟩ := r
    rw [hri] at h
    simp only [ok_bind] at h
    obtain ⟨hp1, hle⟩ := decReadInfo_ok hri
    cases hrc : decReadCount data p1 ai with
    | error e => rw [hrc] at h; simp only [error_bind] at h; simp at h
    | ok r2 =>
      obtain ⟨val, p2b⟩ := r2
      rw [hrc] at h
      simp only [ok_bind] at h
      obtain ⟨_, hle2⟩ := decReadCount_ok (by omega) hrc
      split_ifs at h <;>
        simp only [Except.ok.injEq, Prod.mk.injEq] at h <;> omega

theorem decodeBinaryRaw_le {data : List Nat} {pos : Nat} {v : RVal} {p3 : Nat}
    (h : decodeBinaryRaw data pos = .ok (v, p3)) : p3 ≤ data.length := by
  unfold decodeBinaryRaw at h
  cases hri : decReadInfo data pos with
  | error e => rw [hri] at h; simp only [error_bind] at h; simp at h
  | ok r =>
    obtain ⟨⟨mt, ai⟩, p1⟩ := r
    rw [hri] at h
    simp only [ok_bind] at h
    cases hrc : decReadCount data p1 ai with
    | error e => rw [hrc] at h; simp only [error_bind] at h; simp at h
    | ok r2 =>
      obtain ⟨len, p2⟩ := r2
      rw [hrc] at h
      simp only [ok_bind] at h
      cases ht : decTake data p2 len with
      | error e => rw [ht] at h; simp only [error_bind] at h; simp at h
      | ok r3 =>
        obtain ⟨bs, p3b⟩ := r3
        rw [ht] at h
        simp only [ok_bind, Except.ok.injEq, Prod.mk.injEq] at h
        obtain ⟨he, hle⟩ := decTake_ok ht
        omega

theorem decodeTextRaw_le {data : List Nat} {pos : Nat} {v : RVal} {p3 : Nat}
    (h : decodeTextRaw data pos = .ok (v, p3)) : p3 ≤ data.length := by
  unfold decodeTextRaw at h
  split_ifs at h with hf
  · simp only [Except.ok.injEq, Prod.mk.injEq] at h
    omega
  · cases hri : decReadInfo data pos with
    | error e => rw [hri] at h; simp only [error_bind] at h; simp at h
    | ok r =>
      obtain ⟨⟨mt, ai⟩, p1⟩ := r
      rw [hri] at h
      simp only [ok_bind] at h
      cases hrc : decReadCount data p1 ai with
      | error e => rw [hrc] at h; simp only [error_bind] at h; simp at h
      | ok r2 =>
        obtain ⟨len, p2⟩ := r2
        rw [hrc] at h
        simp only [ok_bind] at h
        cases ht : decTake data p2 len with
        | error e => rw [ht] at h; simp only [error_bind] at h; simp at h
        | ok r3 =>
          obtain ⟨bs, p3b⟩ := r3
          rw [ht] at h
          simp only [ok_bind, Except.ok.injEq, Prod.mk.injEq] at h
          obtain ⟨he, hle⟩ := decTake_ok ht
          omega

theorem decodeMapKey_le {data : List Nat} {pos : Nat} {v : RVal} {p1 : Nat}
    (h : decodeMapKey data pos = .ok (v, p1)) : p1 ≤ data.length := by
  unfold decodeMapKey at h
  split_ifs at h with hf
  · simp only [Except.ok.injEq, Prod.mk.injEq] at h
    omega
  · exact decodeTextRaw_le h

theorem decodeHalfRaw_le {data : List Nat} {pos : Nat} {v : RVal} {p1 : Nat}
    (h : decodeHalfRaw data pos = .ok (v, p1)) : p1 ≤ data.length := by
  unfold decodeHalfRaw at h
  cases ht : decTake data (pos + 1) 2 with
  | error e => rw [ht] at h; simp only [error_bind] at h; simp at h
  | ok r =>
    obtain ⟨bs, p⟩ := r
    rw [ht] at h
    simp only [ok_bind, Except.ok.injEq, Prod.mk.injEq] at h
    obtain ⟨he, hle⟩ := decTake_ok ht
    omega

theorem decodeBignumRaw_le {data : List Nat} {pos tag : Nat} {v : RVal} {p3 : Nat}
    (h : decodeBignumRaw data pos tag = .ok (v, p3)) : p3 ≤ data.length := by
  unfold decodeBignumRaw at h
  cases hri : decReadInfo data pos with
  | error e => rw [hri] at h; simp only [error_bind] at h; simp at h
  | ok r =>
    obtain ⟨⟨mt, ai⟩, p1⟩ := r
    rw [hri] at h
    simp only [ok_bind] at h
    cases hrc : decReadCount data p1 ai with
    | error e => rw [hrc] at h; simp only [error_bind] at h; simp at h
    | ok r2 =>
      obtain ⟨len, p2⟩ := r2
      rw [hrc] at h
      simp only [ok_bind] at h
      cases ht : decTake data p2 len with
      | error e => rw [ht] at h; simp only [error_bind] at h; simp at h
      | ok r3 =>
        obtain ⟨bs, p3b⟩ := r3
        rw [ht] at h
        simp only [ok_bind] at h
        obtain ⟨he, hle⟩ := decTake_ok ht
        split_ifs at h <;>
          simp only [Except.ok.injEq, Prod.mk.injEq] at h <;> omega

theorem decodeBigdecRaw_le {data : List Nat} {pos : Nat} {v : RVal} {p4 : Nat}
    (h : decodeBigdecRaw data pos = .ok (v, p4)) : p4 ≤ data.length := by
  unfold decodeBigdecRaw at h
  cases hri : decReadInfo data pos with
  | error e => rw [hri] at h; simp only [error_bind] at h; simp at h
  | ok r =>
    obtain ⟨⟨mt, ai⟩, p1⟩ := r
    rw [hri] at h
    simp only [ok_bind] at h
    cases hrc : decReadCount data p1 ai with
    | error e => rw [hrc] at h; simp only [error_bind] at h; simp at h
    | ok r2 =>
      obtain ⟨len, p2⟩ := r2
      rw [hrc] at h
      simp only [ok_bind] at h
      split_ifs at h
      cases he1 : decodeIntegerRaw data p2 with
      | error e => rw [he1] at h; simp only [error_bind] at h; simp at h
      | ok r3 =>
        obtain ⟨e1, p3⟩ := r3
        rw [he1] at h
        simp only [ok_bind] at h
        cases he2 : decodeIntegerRaw data p3 with
        | error e => rw [he2] at h; simp only [error_bind] at h; simp at h
        | ok r4 =>
          obtain ⟨m1, p4b⟩ := r4
          rw [he2] at h
          simp only [ok_bind, Except.ok.injEq, Prod.mk.injEq] at h
          have := decodeIntegerRaw_le he2
          omega

theorem defArrayLoop_le {dec : List Nat → Nat → Except DErr (RVal × Nat)}
    {data : List Nat}
    (hdec : ∀ pos v p1, dec data pos = .ok (v, p1) → p1 ≤ data.length) :
    ∀ (n : Nat) (pos : Nat) (acc res : List RVal) (pf : Nat),
      pos ≤ data.length →
      defArrayLoop dec n data pos acc = .ok (res, pf) → pf ≤ data.length := by
  intro n
  induction n with
  | zero =>
    intro pos acc res pf hpos h
    simp only [defArrayLoop, Except.ok.injEq, Prod.mk.injEq] at h
    omega
  | succ n ih =>
    intro pos acc res pf hpos h
    unfold defArrayLoop at h
    cases hd : dec data pos with
    | error e => rw [hd] at h; simp only [error_bind] at h; simp at h
    | ok r =>
      obtain ⟨v, p⟩ := r
      rw [hd] at h
      simp only [ok_bind] at h
      exact ih p (acc ++ [v]) res pf (hdec pos v p hd) h

theorem defMapLoop_le {dec : List Nat → Nat → Except DErr (RVal × Nat)}
    {data : List Nat}
    (hdec : ∀ pos v p1, dec data pos = .ok (v, p1) → p1 ≤ data.length) :
    ∀ (n : Nat) (pos : Nat) (acc res : List (RVal × RVal)) (pf : Nat),
      pos ≤ data.length →
      defMapLoop dec n data pos acc = .ok (res, pf) → pf ≤ data.length := by
  intro n
  induction n with
  | zero =>
    intro pos acc res pf hpos h
    simp only [defMapLoop, Except.ok.injEq, Prod.mk.injEq] at h
    omega
  | succ n ih =>
    intro pos acc res pf hpos h
    unfold defMapLoop at h
    cases hk : decodeMapKey data pos with
    | error e => rw [hk] at h; simp only [error_bind] at h; simp at h
    | ok r =>
      obtain ⟨k, p1⟩ := r
      rw [hk] at h
      simp only [ok_bind] at h
      cases hd : dec data p1 with
      | error e => rw [hd] at h; simp only [error_bind] at h; simp at h
      | ok r2 =>
        obtain ⟨v, p2⟩ := r2
        rw [hd] at h
        simp only [ok_bind] at h
        exact ih p2 (hashAset acc k v) res pf (hdec p1 v p2 hd) h

theorem indefArrayLoop_le {dec : List Nat → Nat → Except DErr (RVal × Nat)}
    {data : List Nat}
    (_hdec : ∀ pos v p1, dec data pos = .ok (v, p1) → p1 ≤ data.length) :
    ∀ (k : Nat) (pos : Nat) (acc res : List RVal) (pf : Nat),
      indefArrayLoop dec k data pos acc = .ok (res, pf) → pf ≤ data.length := by
  intro k
  induction k with
  | zero => intro pos acc res pf h; simp [indefArrayLoop] at h
  | succ k ih =>
    intro pos acc res pf h
    unfold indefArrayLoop at h
    cases hp : decPeek data pos with
    | error e => rw [hp] at h; simp only [error_bind] at h; simp at h
    | ok b =>
      rw [hp] at h
      simp only [ok_bind] at h
      have hpos : pos < data.length := by
        unfold decPeek at hp
        split_ifs at hp with hc
        exact hc
      split_ifs at h with hb
      · simp only [Except.ok.injEq, Prod.mk.injEq] at h
        omega
      · cases hd : dec data pos with
        | error e => rw [hd] at h; simp only [error_bind] at h; simp at h
        | ok r =>
          obtain ⟨v, p⟩ := r
          rw [hd] at h
          simp only [ok_bind] at h
          exact ih p (acc ++ [v]) res pf h

theorem indefMapLoop_le {dec : List Nat → Nat → Except DErr (RVal × Nat)}
    {data : List Nat}
    (_hdec : ∀ pos v p1, dec data pos = .ok (v, p1) → p1 ≤ data.length) :
    ∀ (k : Nat) (pos : Nat) (acc res : List (RVal × RVal)) (pf : Nat),
      indefMapLoop dec k data pos acc = .ok (res, pf) → pf ≤ data.length := by
  intro k
  induction k with
  | zero => intro pos acc res pf h; simp [indefMapLoop] at h
  | succ k ih =>
    intro pos acc res pf h
    unfold indefMapLoop at h
    cases hp : decPeek data pos with
    | error e => rw [hp] at h; simp only [error_bind] at h; simp at h
    | ok b =>
      rw [hp] at h
      simp only [ok_bind] at h
      have hpos : pos < data.length := by
        unfold decPeek at hp
        split_ifs at hp with hc
        exact hc
      split_ifs at h with hb
      · simp only [Except.ok.injEq, Prod.mk.injEq] at h
        omega
      · cases hk2 : decodeMapKey data pos with
        | error e => rw [hk2] at h; simp only [error_bind] at h; simp at h
        | ok r =>
          obtain ⟨kk, p1⟩ := r
          rw [hk2] at h
          simp only [ok_bind] at h
          cases hd : dec data p1 with
          | error e => rw [hd] at h; simp only [error_bind] at h; simp at h
          | ok r2 =>
            obtain ⟨v, p2⟩ := r2
            rw [hd] at h
            simp only [ok_bind] at h
            exact ih p2 (hashAset acc kk v) res pf h

theorem indefChunks_le {data : List Nat} :
    ∀ (k : Nat) (pos : Nat) (acc res : List Nat) (pf : Nat),
      indefChunks k data pos acc = .ok (res, pf) → pf ≤ data.length := by
  intro k
  induction k with
  | zero => intro pos acc res pf h; simp [indefChunks] at h
  | succ k ih =>
    intro pos acc res pf h
    unfold indefChunks at h
    cases hp : decPeek data pos with
    | error e => rw [hp] at h; simp only [error_bind] at h; simp at h
    | ok b =>
      rw [hp] at h
      simp only [ok_bind] at h
      have hpos : pos < data.length := by
        unfold decPeek at hp
        split_ifs at hp with hc
        exact hc
      split_ifs at h with hb
      · simp only [Except.ok.injEq, Prod.mk.injEq] at h
        omega
      · cases hri : decReadInfo data pos with
        | error e => rw [hri] at h; simp only [error_bind] at h; simp at h
        | ok r =>
          obtain ⟨⟨mt, ai⟩, p1⟩ := r
          rw [hri] at h
          simp only [ok_bind] at h
          cases hrc : decReadCount data p1 ai with
          | error e => rw [hrc] at h; simp only [error_bind] at h; simp at h
          | ok r2 =>
            obtain ⟨len, p2⟩ := r2
            rw [hrc] at h
            simp only [ok_bind] at h
            cases ht : decTake data p2 len with
            | error e => rw [ht] at h; simp only [error_bind] at h; simp at h
            | ok r3 =>
              obtain ⟨bs, p3⟩ := r3
              rw [ht] at h
              simp only [ok_bind] at h
              exact ih p3 (acc ++ bs) res pf h

theorem decodeTagRaw_le {dec : List Nat → Nat → Except DErr (RVal × Nat)}
    {data : List Nat}
    (hdec : ∀ pos v p1, dec data pos = .ok (v, p1) → p1 ≤ data.length)
    {pos : Nat} {v : RVal} {p3 : Nat}
    (h : decodeTagRaw dec data pos = .ok (v, p3)) : p3 ≤ data.length := by
  unfold decodeTagRaw at h
  cases hri : decReadInfo data pos with
  | error e => rw [hri] at h; simp only [error_bind] at h; simp at h
  | ok r =>
    obtain ⟨⟨mt, ai⟩, p1⟩ := r
    rw [hri] at h
    simp only [ok_bind] at h
    cases hrc : decReadCount data p1 ai with
    | error e => rw [hrc] at h; simp only [error_bind] at h; simp at h
    | ok r2 =>
      obtain ⟨tag, p2⟩ := r2
      rw [hrc] at h
      simp only [ok_bind] at h
      split_ifs at h with h1 h23 h4
      · cases hd : dec data p2 with
        | error e => rw [hd] at h; simp only [error_bind] at h; simp at h
        | ok r3 =>
          obtain ⟨item, p3b⟩ := r3
          rw [hd] at h
          simp only [ok_bind] at h
          split_ifs at h
          simp only [Except.ok.injEq, Prod.mk.injEq] at h
          have := hdec p2 item p3b hd
          omega
      · exact decodeBignumRaw_le h
      · exact decodeBigdecRaw_le h
      · cases hd : dec data p2 with
        | error e => rw [hd] at h; simp only [error_bind] at h; simp at h
        | ok r3 =>
          obtain ⟨inner, p3b⟩ := r3
          rw [hd] at h
          simp only [ok_bind, Except.ok.injEq, Prod.mk.injEq] at h
          have := hdec p2 inner p3b hd
          omega

/-- On success, `decode_value` leaves the cursor at most at the end of the
buffer: the stateful Decoder's cursor can never exceed the buffer length. -/
theorem decodeValue_le {data : List Nat} :
    ∀ (fuel pos : Nat) (v : RVal) (p1 : Nat),
      decodeValue fuel data pos = .ok (v, p1) → p1 ≤ data.length := by
  intro fuel
  induction fuel with
  | zero => intro pos v p1 h; simp [decodeValue] at h
  | succ fuel ih =>
    intro pos v p1 h
    unfold decodeValue at h
    by_cases hpos : pos < data.length
    case neg => rw [if_neg hpos] at h; simp at h
    rw [if_pos hpos] at h
    by_cases h0 : data.getD pos 0 / 32 = 0
    · rw [if_pos h0] at h
      by_cases ha : data.getD pos 0 % 32 < 24
      · rw [if_pos ha] at h
        simp only [Except.ok.injEq, Prod.mk.injEq] at h
        omega
      · rw [if_neg ha] at h
        cases hd : decodeIntegerRaw data pos with
        | error e => rw [hd] at h; simp only [error_bind] at h; simp at h
        | ok r =>
          obtain ⟨n, p⟩ := r
          rw [hd] at h
          simp only [ok_bind, Except.ok.injEq, Prod.mk.injEq] at h
          have := decodeIntegerRaw_le hd
          omega
    rw [if_neg h0] at h
    by_cases h1 : data.getD pos 0 / 32 = 1
    · rw [if_pos h1] at h
      by_cases ha : data.getD pos 0 % 32 < 24
      · rw [if_pos ha] at h
        simp only [Except.ok.injEq, Prod.mk.injEq] at h
        omega
      · rw [if_neg ha] at h
        cases hd : decodeIntegerRaw data pos with
        | error e => rw [hd] at h; simp only [error_bind] at h; simp at h
        | ok r =>
          obtain ⟨n, p⟩ := r
          rw [hd] at h
          simp only [ok_bind, Except.ok.injEq, Prod.mk.injEq] at h
          have := decodeIntegerRaw_le hd
          omega
    rw [if_neg h1] at h
    by_cases h2 : data.getD pos 0 / 32 = 2
    · rw [if_pos h2] at h
      by_cases ha : data.getD pos 0 % 32 = 31
      · rw [if_pos ha] at h
        cases hc : indefChunks (data.length + 1) data (pos + 1) [] with
        | error e => rw [hc] at h; simp only [error_bind] at h; simp at h
        | ok r =>
          obtain ⟨bs, p⟩ := r
          rw [hc] at h
          simp only [ok_bind, Except.ok.injEq, Prod.mk.injEq] at h
          have := indefChunks_le (data.length + 1) (pos + 1) [] bs p hc
          omega
      · rw [if_neg ha] at h
        exact decodeBinaryRaw_le h
    rw [if_neg h2] at h
    by_cases h3 : data.getD pos 0 / 32 = 3
    · rw [if_pos h3] at h
      by_cases ha : data.getD pos 0 % 32 = 31
      · rw [if_pos ha] at h
        cases hc : indefChunks (data.length + 1) data (pos + 1) [] with
        | error e => rw [hc] at h; simp only [error_bind] at h; simp at h
        | ok r =>
          obtain ⟨bs, p⟩ := r
          rw [hc] at h
          simp only [ok_bind, Except.ok.injEq, Prod.mk.injEq] at h
          have := indefChunks_le (data.length + 1) (pos + 1) [] bs p hc
          omega
      · rw [if_neg ha] at h
        exact decodeTextRaw_le h
    rw [if_neg h3] at h
    by_cases h4 : data.getD pos 0 / 32 = 4
    · rw [if_pos h4] at h
      by_cases ha : data.getD pos 0 % 32 = 31
      · rw [if_pos ha] at h
        cases hc : indefArrayLoop (decodeValue fuel) (data.length + 1) data (pos + 1) [] with
        | error e => rw [hc] at h; simp only [error_bind] at h; simp at h
        | ok r =>
          obtain ⟨xs, p⟩ := r
          rw [hc] at h
          simp only [ok_bind, Except.ok.injEq, Prod.mk.injEq] at h
          have := indefArrayLoop_le (fun pos v p1 hh => ih pos v p1 hh)
            (data.length + 1) (pos + 1) [] xs p hc
          omega
      · rw [if_neg ha] at h
        cases hri : decReadInfo data pos with
        | error e => rw [hri] at h; simp only [error_bind] at h; simp at h
        | ok r =>
          obtain ⟨⟨mt, ai2⟩, q1⟩ := r
          rw [hri] at h
          simp only [ok_bind] at h
          cases hrc : decReadCount data q1 ai2 with
          | error e => rw [hrc] at h; simp only [error_bind] at h; simp at h
          | ok r2 =>
            obtain ⟨n, q2⟩ := r2
            rw [hrc] at h
            simp only [ok_bind] at h
            cases hl : defArrayLoop (decodeValue fuel) n data q2 [] with
            | error e => rw [hl] at h; simp only [error_bind] at h; simp at h
            | ok r3 =>
              obtain ⟨xs, q3⟩ := r3
              rw [hl] at h
              simp only [ok_bind, Except.ok.injEq, Prod.mk.injEq] at h
              obtain ⟨hq1, hq1le⟩ := decReadInfo_ok hri
              obtain ⟨_, hq2le⟩ := decReadCount_ok (by omega) hrc
              have := defArrayLoop_le (fun pos v p1 hh => ih pos v p1 hh)
                n q2 [] xs q3 hq2le hl
              omega
    rw [if_neg h4] at h
    by_cases h5 : data.getD pos 0 / 32 = 5
    · rw [if_pos h5] at h
      by_cases ha : data.getD pos 0 % 32 = 31
      · rw [if_pos ha] at h
        cases hc : indefMapLoop (decodeValue fuel) (data.length + 1) data (pos + 1) [] with
        | error e => rw [hc] at h; simp only [error_bind] at h; simp at h
        | ok r =>
          obtain ⟨ps, p⟩ := r
          rw [hc] at h
          simp only [ok_bind, Except.ok.injEq, Prod.mk.injEq] at h
          have := indefMapLoop_le (fun pos v p1 hh => ih pos v p1 hh)
            (data.length + 1) (pos + 1) [] ps p hc
          omega
      · rw [if_neg ha] at h
        cases hri : decReadInfo data pos with
        | error e => rw [hri] at h; simp only [error_bind] at h; simp at h
        | ok r =>
          obtain ⟨⟨mt, ai2⟩, q1⟩ := r
          rw [hri] at h
          simp only [ok_bind] at h
          cases hrc : decReadCount data q1 ai2 with
          | error e => rw [hrc] at h; simp only [error_bind] at h; simp at h
          | ok r2 =>
            obtain ⟨n, q2⟩ := r2
            rw [hrc] at h
            simp only [ok_bind] at h
            cases hl : defMapLoop (decodeValue fuel) n data q2 [] with
            | error e => rw [hl] at h; simp only [error_bind] at h; simp at h
            | ok r3 =>
              obtain ⟨ps, q3⟩ := r3
              rw [hl] at h
              simp only [ok_bind, Except.ok.injEq, Prod.mk.injEq] at h
              obtain ⟨hq1, hq1le⟩ := decReadInfo_ok hri
              obtain ⟨_, hq2le⟩ := decReadCount_ok (by omega) hrc
              have := defMapLoop_le (fun pos v p1 hh => ih pos v p1 hh)
                n q2 [] ps q3 hq2le hl
              omega
    rw [if_neg h5] at h
    by_cases h6 : data.getD pos 0 / 32 = 6
    · rw [if_pos h6] at h
      exact decodeTagRaw_le (fun pos v p1 hh => ih pos v p1 hh) h
    rw [if_neg h6] at h
    by_cases h7 : data.getD pos 0 / 32 = 7
    case neg => rw [if_neg h7] at h; simp at h
    rw [if_pos h7] at h
    by_cases ha20 : data.getD pos 0 % 32 = 20
    · rw [if_pos ha20] at h
      simp only [Except.ok.injEq, Prod.mk.injEq] at h
      omega
    rw [if_neg ha20] at h
    by_cases ha21 : data.getD pos 0 % 32 = 21
    · rw [if_pos ha21] at h
      simp only [Except.ok.injEq, Prod.mk.injEq] at h
      omega
    rw [if_neg ha21] at h
    by_cases ha22 : data.getD pos 0 % 32 = 22
    · rw [if_pos ha22] at h
      simp only [Except.ok.injEq, Prod.mk.injEq] at h
      omega
    rw [if_neg ha22] at h
    by_cases ha23 : data.getD pos 0 % 32 = 23
    · rw [if_pos ha23] at h
      simp only [Except.ok.injEq, Prod.mk.injEq] at h
      omega
    rw [if_neg ha23] at h
    by_cases ha25 : data.getD pos 0 % 32 = 25
    · rw [if_pos ha25] at h
      exact decodeHalfRaw_le h
    rw [if_neg ha25] at h
    by_cases ha26 : data.getD pos 0 % 32 = 26
    · rw [if_pos ha26] at h
      split_ifs at h with hb
      simp only [Except.ok.injEq, Prod.mk.injEq] at h
      omega
    rw [if_neg ha26] at h
    by_cases ha27 : data.getD pos 0 % 32 = 27
    · rw [if_pos ha27] at h
      split_ifs at h with hb
      simp only [Except.ok.injEq, Prod.mk.injEq] at h
      omega
    rw [if_neg ha27] at h
    by_cases ha31 : data.getD pos 0 % 32 = 31
    · rw [if_pos ha31] at h
      simp at h
    · rw [if_neg ha31] at h
      simp at h

/-! ## Dispatch lemmas: one per arm of `decode_value` -/

theorem dvInt0Small (fuel : Nat) (data : List Nat) (pos : Nat)
    (hpos : pos < data.length) (hM : data.getD pos 0 / 32 = 0)
    (hai : data.getD pos 0 % 32 < 24) :
    decodeValue (fuel + 1) data pos = .ok (.vint (data.getD pos 0 % 32 : Nat), pos + 1) := by
  unfold decodeValue
  rw [if_pos hpos]
  simp only [hM, hai]
  norm_num

theorem dvInt1Small (fuel : Nat) (data : List Nat) (pos : Nat)
    (hpos : pos < data.length) (hM : data.getD pos 0 / 32 = 1)
    (hai : data.getD pos 0 % 32 < 24) :
    decodeValue (fuel + 1) data pos =
      .ok (.vint (-1 - (data.getD pos 0 % 32 : Nat)), pos + 1) := by
  unfold decodeValue
  rw [if_pos hpos]
  simp only [hM, hai]
  norm_num

theorem dvIntBig (fuel : Nat) (data : List Nat) (pos : Nat)
    (hpos : pos < data.length) (hM : data.getD pos 0 / 32 = 0 ∨ data.getD pos 0 / 32 = 1)
    (hai : ¬ data.getD pos 0 % 32 < 24) :
    decodeValue (fuel + 1) data pos = (do
      let (n, p) ← decodeIntegerRaw data pos
      Except.ok (.vint n, p)) := by
  unfold decodeValue
  rw [if_pos hpos]
  rcases hM with hM | hM <;> simp only [hM, hai] <;> norm_num

theorem dvBinary (fuel : Nat) (data : List Nat) (pos : Nat)
    (hpos : pos < data.length) (hM : data.getD pos 0 / 32 = 2)
    (hai : ¬ data.getD pos 0 % 32 = 31) :
    decodeValue (fuel + 1) data pos = decodeBinaryRaw data pos := by
  unfold decodeValue
  rw [if_pos hpos]
  simp only [hM, hai]
  norm_num

theorem dvText (fuel : Nat) (data : List Nat) (pos : Nat)
    (hpos : pos < data.length) (hM : data.getD pos 0 / 32 = 3)
    (hai : ¬ data.getD pos 0 % 32 = 31) :
    decodeValue (fuel + 1) data pos = decodeTextRaw data pos := by
  unfold decodeValue
  rw [if_pos hpos]
  simp only [hM, hai]
  norm_num

theorem dvIndefBinary (fuel : Nat) (data : List Nat) (pos : Nat)
    (hpos : pos < data.length) (hM : data.getD pos 0 / 32 = 2)
    (hai : data.getD pos 0 % 32 = 31) :
    decodeValue (fuel + 1) data pos = (do
      let (bs, p) ← indefChunks (data.length + 1) data (pos + 1) []
      Except.ok (.vstr .binary bs, p)) := by
  unfold decodeValue
  rw [if_pos hpos]
  simp only [hM, hai]
  norm_num

theorem dvIndefText (fuel : Nat) (data : List Nat) (pos : Nat)
    (hpos : pos < data.length) (hM : data.getD pos 0 / 32 = 3)
    (hai : data.getD pos 0 % 32 = 31) :
    decodeValue (fuel + 1) data pos = (do
      let (bs, p) ← indefChunks (data.length + 1) data (pos + 1) []
      Except.ok (.vstr .utf8 bs, p)) := by
  unfold decodeValue
  rw [if_pos hpos]
  simp only [hM, hai]
  norm_num

theorem dvArray (fuel : Nat) (data : List Nat) (pos : Nat)
    (hpos : pos < data.length) (hM : data.getD pos 0 / 32 = 4)
    (hai : ¬ data.getD pos 0 % 32 = 31) :
    decodeValue (fuel + 1) data pos = (do
      let ((_mt, ai2), p1) ← decReadInfo data pos
      let (n, p2) ← decReadCount data p1 ai2
      let (xs, p3) ← defArrayLoop (decodeValue fuel) n data p2 []
      Except.ok (.varr xs, p3)) := by
  unfold decodeValue
  rw [if_pos hpos]
  simp only [hM, hai]
  norm_num

theorem dvIndefArray (fuel : Nat) (data : List Nat) (pos : Nat)
    (hpos : pos < data.length) (hM : data.getD pos 0 / 32 = 4)
    (hai : data.getD pos 0 % 32 = 31) :
    decodeValue (fuel + 1) data pos = (do
      let (xs, p) ← indefArrayLoop (decodeValue fuel) (data.length + 1) data (pos + 1) []
      Except.ok (.varr xs, p)) := by
  unfold decodeValue
  rw [if_pos hpos]
  simp only [hM, hai]
  norm_num

theorem dvMap (fuel : Nat) (data : List Nat) (pos : Nat)
    (hpos : pos < data.length) (hM : data.getD pos 0 / 32 = 5)
    (hai : ¬ data.getD pos 0 % 32 = 31) :
    decodeValue (fuel + 1) data pos = (do
      let ((_mt, ai2), p1) ← decReadInfo data pos
      let (n, p2) ← decReadCount data p1 ai2
      let (ps, p3) ← defMapLoop (decodeValue fuel) n data p2 []
      Except.ok (.vmap ps, p3)) := by
  unfold decodeValue
  rw [if_pos hpos]
  simp only [hM, hai]
  norm_num

theorem dvIndefMap (fuel : Nat) (data : List Nat) (pos : Nat)
    (hpos : pos < data.length) (hM : data.getD pos 0 / 32 = 5)
    (hai : data.getD pos 0 % 32 = 31) :
    decodeValue (fuel + 1) data pos = (do
      let (ps, p) ← indefMapLoop (decodeValue fuel) (data.length + 1) data (pos + 1) []
      Except.ok (.vmap ps, p)) := by
  unfold decodeValue
  rw [if_pos hpos]
  simp only [hM, hai]
  norm_num

theorem dvTag (fuel : Nat) (data : List Nat) (pos : Nat)
    (hpos : pos < data.length) (hM : data.getD pos 0 / 32 = 6) :
    decodeValue (fuel + 1) data pos = decodeTagRaw (decodeValue fuel) data pos := by
  unfold decodeValue
  rw [if_pos hpos]
  simp only [hM]
  norm_num

theorem dvFalse (fuel : Nat) (data : List Nat) (pos : Nat)
    (hpos : pos < data.length) (hM : data.getD pos 0 / 32 = 7)
    (hai : data.getD pos 0 % 32 = 20) :
    decodeValue (fuel + 1) data pos = .ok (.vbool false, pos + 1) := by
  unfold decodeValue
  rw [if_pos hpos]
  simp only [hM, hai]
  norm_num

theorem dvTrue (fuel : Nat) (data : List Nat) (pos : Nat)
    (hpos : pos < data.length) (hM : data.getD pos 0 / 32 = 7)
    (hai : data.getD pos 0 % 32 = 21) :
    decodeValue (fuel + 1) data pos = .ok (.vbool true, pos + 1) := by
  unfold decodeValue
  rw [if_pos hpos]
  simp only [hM, hai]
  norm_num

theorem dvNil (fuel : Nat) (data : List Nat) (pos : Nat)
    (hpos : pos < data.length) (hM : data.getD pos 0 / 32 = 7)
    (hai : data.getD pos 0 % 32 = 22) :
    decodeValue (fuel + 1) data pos = .ok (.vnil, pos + 1) := by
  unfold decodeValue
  rw [if_pos hpos]
  simp only [hM, hai]
  norm_num

theorem dvUndefined (fuel : Nat) (data : List Nat) (pos : Nat)
    (hpos : pos < data.length) (hM : data.getD pos 0 / 32 = 7)
    (hai : data.getD pos 0 % 32 = 23) :
    decodeValue (fuel + 1) data pos = .ok (.vsym undefinedName, pos + 1) := by
  unfold decodeValue
  rw [if_pos hpos]
  simp only [hM, hai]
  norm_num

theorem dvHalf (fuel : Nat) (data : List Nat) (pos : Nat)
    (hpos : pos < data.length) (hM : data.getD pos 0 / 32 = 7)
    (hai : data.getD pos 0 % 32 = 25) :
    decodeValue (fuel + 1) data pos = decodeHalfRaw data pos := by
  unfold decodeValue
  rw [if_pos hpos]
  simp only [hM, hai]
  norm_num

theorem dvFloat32 (fuel : Nat) (data : List Nat) (pos : Nat)
    (hpos : pos < data.length) (hM : data.getD pos 0 / 32 = 7)
    (hai : data.getD pos 0 % 32 = 26) (hb : pos + 1 + 4 ≤ data.length) :
    decodeValue (fuel + 1) data pos =
      .ok (.vfloat (f32ToF64 (beFold ((data.drop (pos + 1)).take 4))), pos + 1 + 4) := by
  unfold decodeValue
  rw [if_pos hpos]
  simp only [hM, hai]
  norm_num
  intro hcon
  exact absurd hcon (by omega)

theorem dvFloat64 (fuel : Nat) (data : List Nat) (pos : Nat)
    (hpos : pos < data.length) (hM : data.getD pos 0 / 32 = 7)
    (hai : data.getD pos 0 % 32 = 27) (hb : pos + 1 + 8 ≤ data.length) :
    decodeValue (fuel + 1) data pos =
      .ok (.vfloat (beFold ((data.drop (pos + 1)).take 8)), pos + 1 + 8) := by
  unfold decodeValue
  rw [if_pos hpos]
  simp only [hM, hai]
  norm_num
  intro hcon
  exact absurd hcon (by omega)

theorem dvBreak (fuel : Nat) (data : List Nat) (pos : Nat)
    (hpos : pos < data.length) (hM : data.getD pos 0 / 32 = 7)
    (hai : data.getD pos 0 % 32 = 31) :
    decodeValue (fuel + 1) data pos = .error .unexpectedBreak := by
  unfold decodeValue
  rw [if_pos hpos]
  simp only [hM, hai]
  norm_num

theorem dvReserved7 (fuel : Nat) (data : List Nat) (pos a : Nat)
    (hpos : pos < data.length) (hM : data.getD pos 0 / 32 = 7)
    (hai : data.getD pos 0 % 32 = a) (ha1 : 28 ≤ a) (ha2 : a ≤ 30) :
    decodeValue (fuel + 1) data pos = .error (.reservedInfo a) := by
  unfold decodeValue
  rw [if_pos hpos]
  simp only [hM, hai]
  interval_cases a <;> norm_num

/-! ## Decoding what the encoder wrote -/

theorem cborEncList_cons (x : RVal) (tl : List RVal) :
    cborEncList (x :: tl) = cborEnc x ++ cborEncList tl := by
  simp [cborEncList]

theorem cborEncPairs_cons (kv : RVal × RVal) (tl : List (RVal × RVal)) :
    cborEncPairs (kv :: tl) = cborEnc kv.1 ++ cborEnc kv.2 ++ cborEncPairs tl := by
  simp [cborEncPairs]

theorem cborEncList_mem_le {x : RVal} {xs : List RVal} (h : x ∈ xs) :
    (cborEnc x).length ≤ (cborEncList xs).length := by
  induction xs with
  | nil => simp at h
  | cons y tl ih =>
    rw [cborEncList_cons]
    rcases List.mem_cons.mp h with rfl | hm
    · simp
    · have := ih hm
      simp [List.length_append]
      omega

theorem cborEncPairs_mem_le {kv : RVal × RVal} {ps : List (RVal × RVal)} (h : kv ∈ ps) :
    (cborEnc kv.1).length ≤ (cborEncPairs ps).length ∧
      (cborEnc kv.2).length ≤ (cborEncPairs ps).length := by
  induction ps with
  | nil => simp at h
  | cons q tl ih =>
    rw [cborEncPairs_cons]
    rcases List.mem_cons.mp h with rfl | hm
    · simp [List.length_append]
      omega
    · have := ih hm
      simp [List.length_append]
      omega

theorem hashAset_not_mem {ps : List (RVal × RVal)} {k v : RVal}
    (h : ∀ p ∈ ps, keyEq p.1 k = false) : hashAset ps k v = ps ++ [(k, v)] := by
  unfold hashAset
  rw [if_neg]
  simp only [List.any_eq_true, not_exists]
  intro p
  intro hc
  obtain ⟨hp, hkeq⟩ := hc
  rw [h p hp] at hkeq
  simp at hkeq

/-- Reading an encoded integer head under major 0. -/
theorem decodeIntegerRaw_enc0 (v : Nat) (hv : v < 2 ^ 64) (pre post : List Nat) :
    decodeIntegerRaw (pre ++ writeHead 0x00 v ++ post) pre.length =
      .ok ((v : Int), pre.length + (writeHead 0x00 v).length) := by
  obtain ⟨hb, hri, hrc⟩ := decHead 0 v (by norm_num) hv pre post
  simp only [show (32 * 0 : Nat) = 0x00 from rfl] at hb hri hrc
  unfold decodeIntegerRaw
  simp only [hri, hrc, ok_bind]
  norm_num

/-- Reading an encoded integer head under major 1. -/
theorem decodeIntegerRaw_enc1 (v : Nat) (hv : v < 2 ^ 64) (pre post : List Nat) :
    decodeIntegerRaw (pre ++ writeHead 0x20 v ++ post) pre.length =
      .ok (-1 - (v : Int), pre.length + (writeHead 0x20 v).length) := by
  obtain ⟨hb, hri, hrc⟩ := decHead 1 v (by norm_num) hv pre post
  simp only [show (32 * 1 : Nat) = 0x20 from rfl] at hb hri hrc
  unfold decodeIntegerRaw
  simp only [hri, hrc, ok_bind]
  norm_num

/-- Reading an encoded byte string. -/
theorem decodeBinaryRaw_enc (bs : List Nat) (hlen : bs.length < 2 ^ 64)
    (pre post : List Nat) :
    decodeBinaryRaw (pre ++ writeHead 0x40 bs.length ++ (bs ++ post)) pre.length =
      .ok (.vstr .binary bs,
        pre.length + (writeHead 0x40 bs.length).length + bs.length) := by
  obtain ⟨hb, hri, hrc⟩ := decHead 2 bs.length (by norm_num) hlen pre (bs ++ post)
  simp only [show (32 * 2 : Nat) = 0x40 from rfl] at hb hri hrc
  have ht : decTake (pre ++ writeHead 0x40 bs.length ++ (bs ++ post))
      (pre.length + (writeHead 0x40 bs.length).length) bs.length =
      .ok (bs, pre.length + (writeHead 0x40 bs.length).length + bs.length) := by
    have h2 : pre ++ writeHead 0x40 bs.length ++ (bs ++ post) =
        (pre ++ writeHead 0x40 bs.length) ++ bs ++ post := by
      simp [List.append_assoc]
    rw [h2]
    have := decTake_append (pre ++ writeHead 0x40 bs.length) bs post bs.length rfl
    simpa [List.length_append] using this
  unfold decodeBinaryRaw
  simp only [hri, hrc, ht, ok_bind]

/-- Reading an encoded text string (both the short fast path and the
generic path land on the same result). -/
theorem decodeTextRaw_enc (bs : List Nat) (hlen : bs.length < 2 ^ 64)
    (pre post : List Nat) :
    decodeTextRaw (pre ++ writeHead 0x60 bs.length ++ (bs ++ post)) pre.length =
      .ok (.vstr .utf8 bs,
        pre.length + (writeHead 0x60 bs.length).length + bs.length) := by
  obtain ⟨hb, hri, hrc⟩ := decHead 3 bs.length (by norm_num) hlen pre (bs ++ post)
  simp only [show (32 * 3 : Nat) = 0x60 from rfl] at hb hri hrc
  have hpos : pre.length < (pre ++ writeHead 0x60 bs.length ++ (bs ++ post)).length := by
    have := writeHead_length_pos 0x60 bs.length
    rw [List.length_append, List.length_append]
    omega
  by_cases h23 : bs.length ≤ 23
  · have hai : headAI bs.length = bs.length := by simp [headAI, h23]
    have hwh : (writeHead 0x60 bs.length).length = 1 := by
      rw [writeHead_length, if_pos h23]
    have hmod : (pre ++ writeHead 0x60 bs.length ++ (bs ++ post)).getD pre.length 0 % 32 =
        bs.length := by
      rw [hb, hai]
      omega
    have hdlen : pre.length + 1 + bs.length ≤
        (pre ++ writeHead 0x60 bs.length ++ (bs ++ post)).length := by
      simp [List.length_append, hwh]
      omega
    have hslice : (((pre ++ writeHead 0x60 bs.length ++ (bs ++ post))).drop
        (pre.length + 1)).take bs.length = bs := by
      have h2 : pre ++ writeHead 0x60 bs.length ++ (bs ++ post) =
          (pre ++ writeHead 0x60 bs.length) ++ (bs ++ post) := by
        simp [List.append_assoc]
      rw [h2]
      have h3 : pre.length + 1 = (pre ++ writeHead 0x60 bs.length).length := by
        simp [List.length_append, hwh]
      rw [h3, List.drop_left]
      exact List.take_left bs post
    unfold decodeTextRaw
    rw [if_pos ⟨hpos, by rw [hmod]; omega, by rw [hmod]; exact hdlen⟩]
    simp only [hmod, hslice, hwh]
  · have hcond : ¬ (pre.length < (pre ++ writeHead 0x60 bs.length ++ (bs ++ post)).length ∧
        (pre ++ writeHead 0x60 bs.length ++ (bs ++ post)).getD pre.length 0 % 32 < 24 ∧
        pre.length + 1 + (pre ++ writeHead 0x60 bs.length ++ (bs ++ post)).getD
          pre.length 0 % 32 ≤ (pre ++ writeHead 0x60 bs.length ++ (bs ++ post)).length) := by
      intro hc
      have h2 := hc.2.1
      rw [hb] at h2
      have hha := headAI_le bs.length
      have hmod : (32 * 3 + headAI bs.length) % 32 = headAI bs.length := by omega
      rw [hmod] at h2
      have : 24 ≤ headAI bs.length := by
        simp [headAI, h23]
        split_ifs <;> omega
      omega
    have ht : decTake (pre ++ writeHead 0x60 bs.length ++ (bs ++ post))
        (pre.length + (writeHead 0x60 bs.length).length) bs.length =
        .ok (bs, pre.length + (writeHead 0x60 bs.length).length + bs.length) := by
      have h2 : pre ++ writeHead 0x60 bs.length ++ (bs ++ post) =
          (pre ++ writeHead 0x60 bs.length) ++ bs ++ post := by
        simp [List.append_assoc]
      rw [h2]
      have := decTake_append (pre ++ writeHead 0x60 bs.length) bs post bs.length rfl
      simpa [List.length_append] using this
    unfold decodeTextRaw
    rw [if_neg hcond]
    simp only [hri, hrc, ht, ok_bind]

/-- Reading an encoded text key through the inlined map-key path. -/
theorem decodeMapKey_enc (bs : List Nat) (hlen : bs.length < 2 ^ 64)
    (pre post : List Nat) :
    decodeMapKey (pre ++ writeHead 0x60 bs.length ++ (bs ++ post)) pre.length =
      .ok (.vstr .utf8 bs,
        pre.length + (writeHead 0x60 bs.length).length + bs.length) := by
  obtain ⟨hb, hri, hrc⟩ := decHead 3 bs.length (by norm_num) hlen pre (bs ++ post)
  simp only [show (32 * 3 : Nat) = 0x60 from rfl] at hb hri hrc
  have hpos : pre.length < (pre ++ writeHead 0x60 bs.length ++ (bs ++ post)).length := by
    have := writeHead_length_pos 0x60 bs.length
    rw [List.length_append, List.length_append]
    omega
  have hha := headAI_le bs.length
  have hdivb : (pre ++ writeHead 0x60 bs.length ++ (bs ++ post)).getD pre.length 0 / 32 =
      3 := by
    rw [hb]
    omega
  by_cases h23 : bs.length ≤ 23
  · have hai : headAI bs.length = bs.length := by simp [headAI, h23]
    have hwh : (writeHead 0x60 bs.length).length = 1 := by
      rw [writeHead_length, if_pos h23]
    have hmod : (pre ++ writeHead 0x60 bs.length ++ (bs ++ post)).getD pre.length 0 % 32 =
        bs.length := by
      rw [hb, hai]
      omega
    have hdlen : pre.length + 1 + bs.length ≤
        (pre ++ writeHead 0x60 bs.length ++ (bs ++ post)).length := by
      simp [List.length_append, hwh]
      omega
    have hslice : (((pre ++ writeHead 0x60 bs.length ++ (bs ++ post))).drop
        (pre.length + 1)).take bs.length = bs := by
      have h2 : pre ++ writeHead 0x60 bs.length ++ (bs ++ post) =
          (pre ++ writeHead 0x60 bs.length) ++ (bs ++ post) := by
        simp [List.append_assoc]
      rw [h2]
      have h3 : pre.length + 1 = (pre ++ writeHead 0x60 bs.length).length := by
        simp [List.length_append, hwh]
      rw [h3, List.drop_left]
      exact List.take_left bs post
    unfold decodeMapKey
    rw [if_pos ⟨hpos, hdivb, by rw [hmod]; omega, by rw [hmod]; exact hdlen⟩]
    simp only [hmod, hslice, hwh]
  · have h24 : 24 ≤ headAI bs.length := by
      simp [headAI, h23]
      split_ifs <;> omega
    have hcond : ¬ (pre.length < (pre ++ writeHead 0x60 bs.length ++ (bs ++ post)).length ∧
        (pre ++ writeHead 0x60 bs.length ++ (bs ++ post)).getD pre.length 0 / 32 = 3 ∧
        (pre ++ writeHead 0x60 bs.length ++ (bs ++ post)).getD pre.length 0 % 32 < 24 ∧
        pre.length + 1 + (pre ++ writeHead 0x60 bs.length ++ (bs ++ post)).getD
          pre.length 0 % 32 ≤ (pre ++ writeHead 0x60 bs.length ++ (bs ++ post)).length) := by
      intro hc
      have h2 := hc.2.2.1
      rw [hb] at h2
      have hmod : (32 * 3 + headAI bs.length) % 32 = headAI bs.length := by omega
      rw [hmod] at h2
      omega
    unfold decodeMapKey
    rw [if_neg hcond]
    exact decodeTextRaw_enc bs hlen pre post

/-! ## The narrowed float fits in 32 bits -/

theorem nlog2_lt (m : Nat) : m < 2 ^ (nlog2 m + 1) := by
  rw [nlog2_eq]
  exact Nat.lt_log2_self

theorem rshiftRNE_le (m k : Nat) : rshiftRNE m k ≤ m / 2 ^ k + 1 := by
  unfold rshiftRNE
  split_ifs with h0
  · subst h0
    simp
  all_goals omega

theorem roundSig_le (m : Nat) (hb : m < 2 ^ (nlog2 m + 1)) :
    roundSig m (nlog2 m) ≤ 2 ^ 24 := by
  unfold roundSig
  split_ifs with hble
  · have h1 : m * 2 ^ (23 - nlog2 m) < 2 ^ (nlog2 m + 1) * 2 ^ (23 - nlog2 m) :=
      mul_lt_mul_of_pos_right hb (Nat.pos_pow_of_pos _ (by norm_num))
    have h2 : (2 : Nat) ^ (nlog2 m + 1) * 2 ^ (23 - nlog2 m) ≤ 2 ^ 24 := by
      rw [← pow_add]
      exact Nat.pow_le_pow_right (by norm_num) (by omega)
    omega
  · have h1 : rshiftRNE m (nlog2 m - 23) ≤ m / 2 ^ (nlog2 m - 23) + 1 := rshiftRNE_le _ _
    have h2 : m / 2 ^ (nlog2 m - 23) < 2 ^ 24 := by
      rw [Nat.div_lt_iff_lt_mul (Nat.pos_pow_of_pos _ (by norm_num))]
      calc m < 2 ^ (nlog2 m + 1) := hb
        _ ≤ 2 ^ 24 * 2 ^ (nlog2 m - 23) := by
            rw [← pow_add]
            exact Nat.pow_le_pow_right (by norm_num) (by omega)
    omega

theorem roundToF32_lt (s m : Nat) (t : Int) (hs : s ≤ 1) :
    roundToF32 s m t < 2 ^ 32 := by
  have hb : m < 2 ^ (nlog2 m + 1) := nlog2_lt m
  have hsig := roundSig_le m hb
  unfold roundToF32
  split_ifs with h1 hc hov hov2 hsh
  · omega
  · have htn : ((nlog2 m : Int) + t + 1 + 127).toNat ≤ 255 := by omega
    have := Nat.mul_le_mul_right (2 ^ 23) htn
    omega
  · omega
  · have htn : ((nlog2 m : Int) + t + 127).toNat ≤ 254 := by omega
    have h3 : roundSig m (nlog2 m) - 2 ^ 23 < 2 ^ 23 := by omega
    have := Nat.mul_le_mul_right (2 ^ 23) htn
    omega
  · have hbt : (nlog2 m : Int) + t < -126 := by omega
    have hsub : m * 2 ^ (t + 149).toNat < 2 ^ 23 ∨ m * 2 ^ (t + 149).toNat ≤ 2 ^ 23 := by
      left
      have hexp : nlog2 m + 1 + (t + 149).toNat ≤ 23 := by omega
      calc m * 2 ^ (t + 149).toNat < 2 ^ (nlog2 m + 1) * 2 ^ (t + 149).toNat :=
          mul_lt_mul_of_pos_right hb (Nat.pos_pow_of_pos _ (by norm_num))
        _ = 2 ^ (nlog2 m + 1 + (t + 149).toNat) := by rw [← pow_add]
        _ ≤ 2 ^ 23 := Nat.pow_le_pow_right (by norm_num) hexp
    omega
  · have h1 : rshiftRNE m (-(t + 149)).toNat ≤ m / 2 ^ (-(t + 149)).toNat + 1 :=
      rshiftRNE_le _ _
    have hbt : (nlog2 m : Int) + t < -126 := by omega
    have h2 : m / 2 ^ (-(t + 149)).toNat < 2 ^ 23 := by
      rw [Nat.div_lt_iff_lt_mul (Nat.pos_pow_of_pos _ (by norm_num))]
      have hexp : nlog2 m + 1 ≤ 23 + (-(t + 149)).toNat := by omega
      calc m < 2 ^ (nlog2 m + 1) := hb
        _ ≤ 2 ^ (23 + (-(t + 149)).toNat) := Nat.pow_le_pow_right (by norm_num) hexp
        _ = 2 ^ 23 * 2 ^ (-(t + 149)).toNat := by rw [← pow_add]
    omega

theorem f64ToF32_lt (x : Nat) : f64ToF32 x < 2 ^ 32 := by
  unfold f64ToF32
  have hs : x / 2 ^ 63 % 2 ≤ 1 := by omega
  have hf : x % 2 ^ 52 < 2 ^ 52 := Nat.mod_lt _ (by norm_num)
  split_ifs with he hf0 hp h0 hsub
  · omega
  · have : x % 2 ^ 52 / 2 ^ 29 < 2 ^ 23 := by omega
    omega
  · have : x % 2 ^ 52 / 2 ^ 29 < 2 ^ 23 := by omega
    omega
  · omega
  · exact roundToF32_lt _ _ _ hs
  · exact roundToF32_lt _ _ _ hs

/-- Decoding what `encode_auto_float` wrote restores the exact bit pattern
for every non-NaN float. -/
theorem decode_float_enc (fuel : Nat) (b : Nat) (hb64 : b < 2 ^ 64)
    (hnan : isNan64 b = false) (pre post : List Nat) :
    decodeValue (fuel + 1) (pre ++ encodeAutoFloat b ++ post) pre.length =
      .ok (.vfloat b, pre.length + (encodeAutoFloat b).length) := by
  by_cases hrt : f32ToF64 (f64ToF32 b) = b
  · have henc : encodeAutoFloat b = 0xfa :: natToBE 4 (f64ToF32 b) := by
      unfold encodeAutoFloat
      rw [if_neg (by simp [hnan]), if_pos hrt]
    rw [henc]
    have hshape : pre ++ (0xfa :: natToBE 4 (f64ToF32 b)) ++ post =
        (pre ++ [0xfa]) ++ (natToBE 4 (f64ToF32 b) ++ post) := by
      simp [List.append_assoc]
    have hlen : (pre ++ (0xfa :: natToBE 4 (f64ToF32 b)) ++ post).length =
        pre.length + 5 + post.length := by
      simp [List.length_append, natToBE_length]
      omega
    have hbyte : (pre ++ (0xfa :: natToBE 4 (f64ToF32 b)) ++ post).getD pre.length 0 =
        0xfa := by
      have h2 : pre ++ (0xfa :: natToBE 4 (f64ToF32 b)) ++ post =
          pre ++ 0xfa :: (natToBE 4 (f64ToF32 b) ++ post) := by
        simp [List.append_assoc]
      rw [h2]
      exact getD_append_self pre 0xfa _
    have hslice : ((pre ++ (0xfa :: natToBE 4 (f64ToF32 b)) ++ post).drop
        (pre.length + 1)).take 4 = natToBE 4 (f64ToF32 b) := by
      rw [hshape]
      have h3 : pre.length + 1 = (pre ++ [0xfa]).length := by simp
      rw [h3, List.drop_left]
      exact (natToBE_length 4 (f64ToF32 b)) ▸ List.take_left _ post
    rw [dvFloat32 fuel _ pre.length (by rw [hlen]; omega)
      (by rw [hbyte]) (by rw [hbyte]) (by rw [hlen]; omega)]
    rw [hslice, beFold_natToBE 4 (f64ToF32 b) (by norm_num; exact f64ToF32_lt b), hrt]
    simp [natToBE_length]
  · have henc : encodeAutoFloat b = 0xfb :: natToBE 8 b := by
      unfold encodeAutoFloat
      rw [if_neg (by simp [hnan]), if_neg hrt]
      rfl
    rw [henc]
    have hshape : pre ++ (0xfb :: natToBE 8 b) ++ post =
        (pre ++ [0xfb]) ++ (natToBE 8 b ++ post) := by
      simp [List.append_assoc]
    have hlen : (pre ++ (0xfb :: natToBE 8 b) ++ post).length =
        pre.length + 9 + post.length := by
      simp [List.length_append, natToBE_length]
      omega
    have hbyte : (pre ++ (0xfb :: natToBE 8 b) ++ post).getD pre.length 0 = 0xfb := by
      have h2 : pre ++ (0xfb :: natToBE 8 b) ++ post =
          pre ++ 0xfb :: (natToBE 8 b ++ post) := by
        simp [List.append_assoc]
      rw [h2]
      exact getD_append_self pre 0xfb _
    have hslice : ((pre ++ (0xfb :: natToBE 8 b) ++ post).drop
        (pre.length + 1)).take 8 = natToBE 8 b := by
      rw [hshape]
      have h3 : pre.length + 1 = (pre ++ [0xfb]).length := by simp
      rw [h3, List.drop_left]
      exact (natToBE_length 8 b) ▸ List.take_left _ post
    rw [dvFloat64 fuel _ pre.length (by rw [hlen]; omega)
      (by rw [hbyte]) (by rw [hbyte]) (by rw [hlen]; omega)]
    rw [hslice, beFold_natToBE 8 b (by norm_num; exact hb64)]
    simp [natToBE_length]

/-- `decode_bignum_raw` on an encoded byte-string head and magnitude under
tag 2. -/
theorem decodeBignumRaw_enc2 (mb : List Nat) (hlen : mb.length < 2 ^ 64)
    (pre post : List Nat) :
    decodeBignumRaw (pre ++ writeHead 0x40 mb.length ++ (mb ++ post)) pre.length 2 =
      .ok (.vint (beFold mb),
        pre.length + (writeHead 0x40 mb.length).length + mb.length) := by
  obtain ⟨hb, hri, hrc⟩ := decHead 2 mb.length (by norm_num) hlen pre (mb ++ post)
  simp only [show (32 * 2 : Nat) = 0x40 from rfl] at hb hri hrc
  have ht : decTake (pre ++ writeHead 0x40 mb.length ++ (mb ++ post))
      (pre.length + (writeHead 0x40 mb.length).length) mb.length =
      .ok (mb, pre.length + (writeHead 0x40 mb.length).length + mb.length) := by
    have h2 : pre ++ writeHead 0x40 mb.length ++ (mb ++ post) =
        (pre ++ writeHead 0x40 mb.length) ++ mb ++ post := by
      simp [List.append_assoc]
    rw [h2]
    have := decTake_append (pre ++ writeHead 0x40 mb.length) mb post mb.length rfl
    simpa [List.length_append] using this
  unfold decodeBignumRaw
  simp only [hri, hrc, ht, ok_bind]
  norm_num

/-- `decode_bignum_raw` under tag 3: the result is `-1 - magnitude`. -/
theorem decodeBignumRaw_enc3 (mb : List Nat) (hlen : mb.length < 2 ^ 64)
    (pre post : List Nat) :
    decodeBignumRaw (pre ++ writeHead 0x40 mb.length ++ (mb ++ post)) pre.length 3 =
      .ok (.vint (-1 - (beFold mb : Int)),
        pre.length + (writeHead 0x40 mb.length).length + mb.length) := by
  obtain ⟨hb, hri, hrc⟩ := decHead 2 mb.length (by norm_num) hlen pre (mb ++ post)
  simp only [show (32 * 2 : Nat) = 0x40 from rfl] at hb hri hrc
  have ht : decTake (pre ++ writeHead 0x40 mb.length ++ (mb ++ post))
      (pre.length + (writeHead 0x40 mb.length).length) mb.length =
      .ok (mb, pre.length + (writeHead 0x40 mb.length).length + mb.length) := by
    have h2 : pre ++ writeHead 0x40 mb.length ++ (mb ++ post) =
        (pre ++ writeHead 0x40 mb.length) ++ mb ++ post := by
      simp [List.append_assoc]
    rw [h2]
    have := decTake_append (pre ++ writeHead 0x40 mb.length) mb post mb.length rfl
    simpa [List.length_append] using this
  unfold decodeBignumRaw
  simp only [hri, hrc, ht, ok_bind]
  norm_num

theorem headAI_small {v : Nat} (h : v ≤ 23) : headAI v = v := by
  simp [headAI, h]

theorem headAI_ge_24 {v : Nat} (h : ¬ v ≤ 23) : 24 ≤ headAI v := by
  simp [headAI, h]
  split_ifs <;> omega

theorem good_arr {fuel : Nat} {xs : List RVal} (h : good (fuel + 1) (.varr xs) = true) :
    xs.length < 2 ^ 64 ∧ ∀ x ∈ xs, good fuel x = true := by
  simpa [good, List.all_eq_true] using h

theorem good_map {fuel : Nat} {ps : List (RVal × RVal)}
    (h : good (fuel + 1) (.vmap ps) = true) :
    ps.length < 2 ^ 64 ∧
      (∀ kv ∈ ps, isTextKey kv.1 = true ∧ good fuel kv.1 = true ∧ good fuel kv.2 = true) ∧
      nodupKeys (ps.map Prod.fst) = true := by
  have h2 := h
  simp only [good, Bool.and_eq_true, decide_eq_true_eq, List.all_eq_true] at h2
  exact ⟨h2.1.1, fun kv hkv => by
    have := h2.1.2 kv hkv
    simp only [Bool.and_eq_true] at this
    exact ⟨this.1.1, this.1.2, this.2⟩, h2.2⟩

theorem good_tagged {fuel : Nat} {t : Nat} {v : RVal}
    (h : good (fuel + 1) (.vtagged t v) = true) :
    t < 2 ^ 64 ∧ t ≠ 1 ∧ t ≠ 2 ∧ t ≠ 3 ∧ t ≠ 4 ∧ good fuel v = true := by
  simp only [good, Bool.and_eq_true, decide_eq_true_eq, Bool.not_eq_true',
    decide_eq_false_iff_not] at h
  tauto

/-- Decoding the encoded elements of a definite-length array, one at a
time. -/
theorem defArrayLoop_enc (fuel gf : Nat)
    (ih : ∀ (gf2 : Nat) (v : RVal) (pre post : List Nat), good gf2 v = true →
      (cborEnc v).length < fuel →
      decodeValue fuel (pre ++ cborEnc v ++ post) pre.length =
        .ok (v, pre.length + (cborEnc v).length)) :
    ∀ (xs : List RVal) (acc : List RVal) (pre post : List Nat),
      (∀ x ∈ xs, good gf x = true) →
      (∀ x ∈ xs, (cborEnc x).length < fuel) →
      defArrayLoop (decodeValue fuel) xs.length (pre ++ cborEncList xs ++ post)
        pre.length acc = .ok (acc ++ xs, pre.length + (cborEncList xs).length) := by
  intro xs
  induction xs with
  | nil =>
    intro acc pre post hg hf
    show Except.ok (acc, pre.length) = _
    simp [cborEncList]
  | cons x tl ihl =>
    intro acc pre post hg hf
    have hshape : pre ++ cborEncList (x :: tl) ++ post =
        pre ++ cborEnc x ++ (cborEncList tl ++ post) := by
      rw [cborEncList_cons]
      simp [List.append_assoc]
    rw [hshape]
    have hstep : defArrayLoop (decodeValue fuel) (x :: tl).length
        (pre ++ cborEnc x ++ (cborEncList tl ++ post)) pre.length acc = (do
          let (v, p) ← decodeValue fuel (pre ++ cborEnc x ++ (cborEncList tl ++ post))
            pre.length
          defArrayLoop (decodeValue fuel) tl.length
            (pre ++ cborEnc x ++ (cborEncList tl ++ post)) p (acc ++ [v])) := rfl
    rw [hstep, ih gf x pre (cborEncList tl ++ post) (hg x (by simp)) (hf x (by simp)),
      ok_bind]
    have hpos2 : pre.length + (cborEnc x).length = (pre ++ cborEnc x).length := by
      simp [List.length_append]
    have hshape2 : pre ++ cborEnc x ++ (cborEncList tl ++ post) =
        (pre ++ cborEnc x) ++ cborEncList tl ++ post := by
      simp [List.append_assoc]
    rw [hpos2, hshape2]
    show defArrayLoop (decodeValue fuel) tl.length
        (pre ++ cborEnc x ++ cborEncList tl ++ post) (pre ++ cborEnc x).length
        (acc ++ [x]) =
      Except.ok (acc ++ x :: tl, pre.length + (cborEncList (x :: tl)).length)
    rw [ihl (acc ++ [x]) (pre ++ cborEnc x) post (fun y hy => hg y (by simp [hy]))
      (fun y hy => hf y (by simp [hy]))]
    rw [cborEncList_cons]
    simp [List.length_append]
    omega

/-- Decoding the encoded pairs of a definite-length map, one key (text) and
one value at a time, rebuilding the hash via `rb_hash_aset`. -/
theorem defMapLoop_enc (fuel gf : Nat)
    (ih : ∀ (gf2 : Nat) (v : RVal) (pre post : List Nat), good gf2 v = true →
      (cborEnc v).length < fuel →
      decodeValue fuel (pre ++ cborEnc v ++ post) pre.length =
        .ok (v, pre.length + (cborEnc v).length)) :
    ∀ (ps : List (RVal × RVal)) (acc : List (RVal × RVal)) (pre post : List Nat),
      (∀ kv ∈ ps, isTextKey kv.1 = true ∧ good gf kv.1 = true ∧ good gf kv.2 = true) →
      (∀ kv ∈ ps, (cborEnc kv.1).length < fuel ∧ (cborEnc kv.2).length < fuel) →
      nodupKeys (ps.map Prod.fst) = true →
      (∀ kv ∈ ps, ∀ p ∈ acc, keyEq p.1 kv.1 = false) →
      defMapLoop (decodeValue fuel) ps.length (pre ++ cborEncPairs ps ++ post)
        pre.length acc = .ok (acc ++ ps, pre.length + (cborEncPairs ps).length) := by
  intro ps
  induction ps with
  | nil =>
    intro acc pre post hg hf hnd hacc
    show Except.ok (acc, pre.length) = _
    simp [cborEncPairs]
  | cons kv tl ihl =>
    intro acc pre post hg hf hnd hacc
    obtain ⟨k0, v0⟩ := kv
    obtain ⟨hkey, hgk, hgv⟩ := hg (k0, v0) (by simp)
    obtain ⟨kb, hk0⟩ : ∃ kb, k0 = .vstr .utf8 kb := by
      cases k0 <;> simp [isTextKey] at hkey
      case vstr enc kb =>
        cases enc
        · exact ⟨kb, rfl⟩
        · simp at hkey
    subst hk0
    have hkblen : kb.length < 2 ^ 64 := by
      cases gf with
      | zero => simp [good] at hgk
      | succ gf2 =>
        simp only [good, Bool.and_eq_true, decide_eq_true_eq] at hgk
        exact hgk.1
    have henck : cborEnc (.vstr .utf8 kb) = writeHead 0x60 kb.length ++ kb := by
      have h1 : cborEnc (.vstr .utf8 kb) = writeHead 0x60 (kb.length % 2 ^ 64) ++ kb := by
        simp only [cborEnc]
      rw [h1, Nat.mod_eq_of_lt hkblen]
    have hshape : pre ++ cborEncPairs ((.vstr .utf8 kb, v0) :: tl) ++ post =
        pre ++ writeHead 0x60 kb.length ++
          (kb ++ (cborEnc v0 ++ (cborEncPairs tl ++ post))) := by
      rw [cborEncPairs_cons]
      simp only [henck]
      simp [List.append_assoc]
    rw [hshape]
    have hstep : defMapLoop (decodeValue fuel) ((.vstr .utf8 kb, v0) :: tl).length
        (pre ++ writeHead 0x60 kb.length ++ (kb ++ (cborEnc v0 ++ (cborEncPairs tl ++ post))))
        pre.length acc = (do
          let (k, p1) ← decodeMapKey
            (pre ++ writeHead 0x60 kb.length ++
              (kb ++ (cborEnc v0 ++ (cborEncPairs tl ++ post)))) pre.length
          let (v, p2) ← decodeValue fuel
            (pre ++ writeHead 0x60 kb.length ++
              (kb ++ (cborEnc v0 ++ (cborEncPairs tl ++ post)))) p1
          defMapLoop (decodeValue fuel) tl.length
            (pre ++ writeHead 0x60 kb.length ++
              (kb ++ (cborEnc v0 ++ (cborEncPairs tl ++ post)))) p2
            (hashAset acc k v)) := rfl
    have hkdec := decodeMapKey_enc kb hkblen pre (cborEnc v0 ++ (cborEncPairs tl ++ post))
    have hshapek : pre ++ writeHead 0x60 kb.length ++
        (kb ++ (cborEnc v0 ++ (cborEncPairs tl ++ post))) =
        (pre ++ writeHead 0x60 kb.length ++ kb) ++ cborEnc v0 ++
          (cborEncPairs tl ++ post) := by
      simp [List.append_assoc]
    have hposk : pre.length + (writeHead 0x60 kb.length).length + kb.length =
        (pre ++ writeHead 0x60 kb.length ++ kb).length := by
      simp [List.length_append]
      omega
    rw [hstep, hkdec, ok_bind, hposk, hshapek]
    show (do
        let (v, p2) ← decodeValue fuel
          (pre ++ writeHead 0x60 kb.length ++ kb ++ cborEnc v0 ++ (cborEncPairs tl ++ post))
          (pre ++ writeHead 0x60 kb.length ++ kb).length
        defMapLoop (decodeValue fuel) tl.length
          (pre ++ writeHead 0x60 kb.length ++ kb ++ cborEnc v0 ++ (cborEncPairs tl ++ post)) p2
          (hashAset acc (.vstr .utf8 kb) v)) =
      Except.ok (acc ++ (RVal.vstr StrEnc.utf8 kb, v0) :: tl,
        pre.length + (cborEncPairs ((RVal.vstr StrEnc.utf8 kb, v0) :: tl)).length)
    rw [ih gf v0 (pre ++ writeHead 0x60 kb.length ++ kb) (cborEncPairs tl ++ post) hgv
      (hf (.vstr .utf8 kb, v0) (by simp)).2, ok_bind]
    have haset : hashAset acc (.vstr .utf8 kb) v0 = acc ++ [(.vstr .utf8 kb, v0)] :=
      hashAset_not_mem (fun p hp => hacc (.vstr .utf8 kb, v0) (by simp) p hp)
    have hposv : (pre ++ writeHead 0x60 kb.length ++ kb).length + (cborEnc v0).length =
        (pre ++ writeHead 0x60 kb.length ++ kb ++ cborEnc v0).length := by
      simp [List.length_append]
      omega
    have hshapev : (pre ++ writeHead 0x60 kb.length ++ kb) ++ cborEnc v0 ++
        (cborEncPairs tl ++ post) =
        (pre ++ writeHead 0x60 kb.length ++ kb ++ cborEnc v0) ++ cborEncPairs tl ++ post := by
      simp [List.append_assoc]
    have hnd2 : nodupKeys (tl.map Prod.fst) = true := by
      simp only [List.map_cons, nodupKeys, Bool.and_eq_true] at hnd
      exact hnd.2
    have hheadnd : ∀ kv2 ∈ tl, keyEq (.vstr .utf8 kb) kv2.1 = false := by
      simp only [List.map_cons, nodupKeys, Bool.and_eq_true, List.all_eq_true] at hnd
      intro kv2 hkv2
      have := hnd.1 kv2.1 (List.mem_map_of_mem Prod.fst hkv2)
      simpa using this
    rw [hposv, hshapev]
    show defMapLoop (decodeValue fuel) tl.length
        (pre ++ writeHead 0x60 kb.length ++ kb ++ cborEnc v0 ++ cborEncPairs tl ++ post)
        (pre ++ writeHead 0x60 kb.length ++ kb ++ cborEnc v0).length
        (hashAset acc (.vstr .utf8 kb) v0) =
      Except.ok (acc ++ (RVal.vstr StrEnc.utf8 kb, v0) :: tl,
        pre.length + (cborEncPairs ((RVal.vstr StrEnc.utf8 kb, v0) :: tl)).length)
    rw [haset,
      ihl (acc ++ [(RVal.vstr StrEnc.utf8 kb, v0)])
        (pre ++ writeHead 0x60 kb.length ++ kb ++ cborEnc v0)
        post (fun q hq => hg q (by simp [hq])) (fun q hq => hf q (by simp [hq])) hnd2 ?_]
    · rw [cborEncPairs_cons]
      simp only [henck]
      simp [List.length_append]
      omega
    · intro kv2 hkv2 p hp
      rcases List.mem_append.mp hp with hp2 | hp2
      · exact hacc kv2 (by simp [hkv2]) p hp2
      · have hpk : p = (.vstr .utf8 kb, v0) := by simpa using hp2
        subst hpk
        exact hheadnd kv2 hkv2


/-! ## The round trip on good values -/

/-- Decoding the bytes `encode_value` wrote for a good value returns that
value and stops exactly past its encoding, for any surrounding bytes. -/
theorem decode_good_enc :
    ∀ (fuel gf : Nat) (v : RVal) (pre post : List Nat), good gf v = true →
      (cborEnc v).length < fuel →
      decodeValue fuel (pre ++ cborEnc v ++ post) pre.length =
        .ok (v, pre.length + (cborEnc v).length) := by
  intro fuel
  induction fuel with
  | zero => intro gf v pre post _ hf; exact absurd hf (by omega)
  | succ fuel ih =>
    intro gf v pre post hg hf
    cases gf with
    | zero => simp [good] at hg
    | succ gf =>
      cases v with
      | vnil =>
        have henc : cborEnc .vnil = [0xf6] := by simp only [cborEnc]; rfl
        rw [henc]
        have hb : (pre ++ [0xf6] ++ post).getD pre.length 0 = 0xf6 := by
          simpa using getD_append_self pre 0xf6 post
        have hpos : pre.length < (pre ++ [0xf6] ++ post).length := by
          simp [List.length_append]
        rw [dvNil fuel _ _ hpos (by rw [hb]) (by rw [hb])]
        rfl
      | vbool b =>
        cases b with
        | false =>
          have henc : cborEnc (.vbool false) = [0xf4] := by simp only [cborEnc]; rfl
          rw [henc]
          have hb : (pre ++ [0xf4] ++ post).getD pre.length 0 = 0xf4 := by
            simpa using getD_append_self pre 0xf4 post
          have hpos : pre.length < (pre ++ [0xf4] ++ post).length := by
            simp [List.length_append]
          rw [dvFalse fuel _ _ hpos (by rw [hb]) (by rw [hb])]
          rfl
        | true =>
          have henc : cborEnc (.vbool true) = [0xf5] := by simp only [cborEnc]; rfl
          rw [henc]
          have hb : (pre ++ [0xf5] ++ post).getD pre.length 0 = 0xf5 := by
            simpa using getD_append_self pre 0xf5 post
          have hpos : pre.length < (pre ++ [0xf5] ++ post).length := by
            simp [List.length_append]
          rw [dvTrue fuel _ _ hpos (by rw [hb]) (by rw [hb])]
          rfl
      | vint n =>
        by_cases h1 : -(2 ^ 63) ≤ n ∧ n < 2 ^ 63
        · have henc : cborEnc (.vint n) = encodeInteger n := by
            simp only [cborEnc]
            rw [if_pos h1]
          rw [henc]
          by_cases hneg : n < 0
          · have hmlt : (-1 - n).toNat < 2 ^ 64 := by omega
            have hm : encodeInteger n = writeHead 0x20 (-1 - n).toNat := by
              unfold encodeInteger
              rw [if_pos hneg, Nat.mod_eq_of_lt hmlt]
            rw [hm]
            obtain ⟨hb, hri, hrc⟩ := decHead 1 (-1 - n).toNat (by norm_num) hmlt pre post
            simp only [show (32 * 1 : Nat) = 0x20 from rfl] at hb hri hrc
            have hpos : pre.length <
                (pre ++ writeHead 0x20 (-1 - n).toNat ++ post).length := by
              have hw := writeHead_length_pos 0x20 (-1 - n).toNat
              simp [List.length_append]
              omega
            have hai27 := headAI_le (-1 - n).toNat
            by_cases h23 : (-1 - n).toNat ≤ 23
            · have hv : (pre ++ writeHead 0x20 (-1 - n).toNat ++ post).getD
                  pre.length 0 % 32 = (-1 - n).toNat := by
                rw [hb, headAI_small h23]
                omega
              rw [dvInt1Small fuel _ _ hpos
                (by rw [hb, headAI_small h23]; omega) (by rw [hv]; omega), hv]
              have hwh : (writeHead 0x20 (-1 - n).toNat).length = 1 := by
                rw [writeHead_length, if_pos h23]
              rw [hwh]
              have hval : (-1 - ((-1 - n).toNat : Int)) = n := by omega
              rw [hval]
            · have h24 := headAI_ge_24 h23
              rw [dvIntBig fuel _ _ hpos (Or.inr (by rw [hb]; omega))
                  (by rw [hb]; omega),
                decodeIntegerRaw_enc1 _ hmlt pre post, ok_bind]
              have hval : (-1 - ((-1 - n).toNat : Int)) = n := by omega
              rw [hval]
          · have hmlt : n.toNat < 2 ^ 64 := by omega
            have hm : encodeInteger n = writeHead 0x00 n.toNat := by
              unfold encodeInteger
              rw [if_neg hneg, Nat.mod_eq_of_lt hmlt]
            rw [hm]
            obtain ⟨hb, hri, hrc⟩ := decHead 0 n.toNat (by norm_num) hmlt pre post
            simp only [show (32 * 0 : Nat) = 0x00 from rfl] at hb hri hrc
            have hpos : pre.length <
                (pre ++ writeHead 0x00 n.toNat ++ post).length := by
              have hw := writeHead_length_pos 0x00 n.toNat
              simp [List.length_append]
              omega
            have hai27 := headAI_le n.toNat
            by_cases h23 : n.toNat ≤ 23
            · have hv : (pre ++ writeHead 0x00 n.toNat ++ post).getD
                  pre.length 0 % 32 = n.toNat := by
                rw [hb, headAI_small h23]
                omega
              rw [dvInt0Small fuel _ _ hpos
                (by rw [hb, headAI_small h23]; omega) (by rw [hv]; omega), hv]
              have hwh : (writeHead 0x00 n.toNat).length = 1 := by
                rw [writeHead_length, if_pos h23]
              rw [hwh]
              have hval : ((n.toNat : Int)) = n := by omega
              rw [hval]
            · have h24 := headAI_ge_24 h23
              rw [dvIntBig fuel _ _ hpos (Or.inl (by rw [hb]; omega))
                  (by rw [hb]; omega),
                decodeIntegerRaw_enc0 _ hmlt pre post, ok_bind]
              have hval : ((n.toNat : Int)) = n := by omega
              rw [hval]
        · by_cases h2 : 0 ≤ n ∧ n < 2 ^ 64
          · have hmlt : n.toNat < 2 ^ 64 := by omega
            have henc : cborEnc (.vint n) = writeHead 0x00 n.toNat := by
              simp only [cborEnc]
              rw [if_neg h1, if_pos h2]
            rw [henc]
            obtain ⟨hb, hri, hrc⟩ := decHead 0 n.toNat (by norm_num) hmlt pre post
            simp only [show (32 * 0 : Nat) = 0x00 from rfl] at hb hri hrc
            have hpos : pre.length <
                (pre ++ writeHead 0x00 n.toNat ++ post).length := by
              have hw := writeHead_length_pos 0x00 n.toNat
              simp [List.length_append]
              omega
            have hai27 := headAI_le n.toNat
            have h23 : ¬ n.toNat ≤ 23 := by omega
            have h24 := headAI_ge_24 h23
            rw [dvIntBig fuel _ _ hpos (Or.inl (by rw [hb]; omega))
                (by rw [hb]; omega),
              decodeIntegerRaw_enc0 _ hmlt pre post, ok_bind]
            have hval : ((n.toNat : Int)) = n := by omega
            rw [hval]
          · by_cases hneg : n < 0
            · have hbig : n < -(2 ^ 63) := by omega
              have hmb : (magBytes (-1 - n).toNat).length < 2 ^ 64 := by
                simp only [good] at hg
                rw [if_neg (by omega), if_pos hbig] at hg
                exact of_decide_eq_true hg
              have henc : cborEnc (.vint n) =
                  writeHead 0xc0 3 ++ writeHead 0x40 (magBytes (-1 - n).toNat).length ++
                    magBytes (-1 - n).toNat := by
                simp only [cborEnc]
                rw [if_neg h1, if_neg h2]
                simp [hneg, List.append_assoc]
                congr 1
                omega
              rw [henc]
              have hshape : pre ++ (writeHead 0xc0 3 ++
                    writeHead 0x40 (magBytes (-1 - n).toNat).length ++
                    magBytes (-1 - n).toNat) ++ post =
                  pre ++ writeHead 0xc0 3 ++
                    (writeHead 0x40 (magBytes (-1 - n).toNat).length ++
                      (magBytes (-1 - n).toNat ++ post)) := by
                simp [List.append_assoc]
              rw [hshape]
              obtain ⟨hb, hri, hrc⟩ := decHead 6 3 (by norm_num) (by norm_num) pre
                (writeHead 0x40 (magBytes (-1 - n).toNat).length ++
                  (magBytes (-1 - n).toNat ++ post))
              simp only [show (32 * 6 : Nat) = 0xc0 from rfl] at hb hri hrc
              have hpos : pre.length < (pre ++ writeHead 0xc0 3 ++
                  (writeHead 0x40 (magBytes (-1 - n).toNat).length ++
                    (magBytes (-1 - n).toNat ++ post))).length := by
                have hw := writeHead_length_pos 0xc0 3
                simp [List.length_append]
                omega
              rw [dvTag fuel _ _ hpos (by rw [hb]; rfl)]
              unfold decodeTagRaw
              simp only [hri, hrc, ok_bind]
              rw [if_neg (by norm_num), if_pos (by norm_num)]
              rw [show pre.length + (writeHead 0xc0 3).length =
                  (pre ++ writeHead 0xc0 3).length from by simp]
              rw [show pre ++ writeHead 0xc0 3 ++
                  (writeHead 0x40 (magBytes (-1 - n).toNat).length ++
                    (magBytes (-1 - n).toNat ++ post)) =
                  (pre ++ writeHead 0xc0 3) ++
                    writeHead 0x40 (magBytes (-1 - n).toNat).length ++
                    (magBytes (-1 - n).toNat ++ post) from by simp [List.append_assoc]]
              rw [decodeBignumRaw_enc3 _ hmb (pre ++ writeHead 0xc0 3) post,
                beFold_magBytes]
              have hval : (-1 - ((-1 - n).toNat : Int)) = n := by omega
              rw [hval]
              simp [List.length_append]
              omega
            · have hbig : 2 ^ 64 ≤ n := by omega
              have hmb : (magBytes n.toNat).length < 2 ^ 64 := by
                simp only [good] at hg
                rw [if_pos hbig] at hg
                exact of_decide_eq_true hg
              have henc : cborEnc (.vint n) =
                  writeHead 0xc0 2 ++ writeHead 0x40 (magBytes n.toNat).length ++
                    magBytes n.toNat := by
                simp only [cborEnc]
                rw [if_neg h1, if_neg h2]
                simp [hneg, List.append_assoc]
                congr 1
                omega
              rw [henc]
              have hshape : pre ++ (writeHead 0xc0 2 ++
                    writeHead 0x40 (magBytes n.toNat).length ++ magBytes n.toNat) ++ post =
                  pre ++ writeHead 0xc0 2 ++
                    (writeHead 0x40 (magBytes n.toNat).length ++
                      (magBytes n.toNat ++ post)) := by
                simp [List.append_assoc]
              rw [hshape]
              obtain ⟨hb, hri, hrc⟩ := decHead 6 2 (by norm_num) (by norm_num) pre
                (writeHead 0x40 (magBytes n.toNat).length ++ (magBytes n.toNat ++ post))
              simp only [show (32 * 6 : Nat) = 0xc0 from rfl] at hb hri hrc
              have hpos : pre.length < (pre ++ writeHead 0xc0 2 ++
                  (writeHead 0x40 (magBytes n.toNat).length ++
                    (magBytes n.toNat ++ post))).length := by
                have hw := writeHead_length_pos 0xc0 2
                simp [List.length_append]
                omega
              rw [dvTag fuel _ _ hpos (by rw [hb]; rfl)]
              unfold decodeTagRaw
              simp only [hri, hrc, ok_bind]
              rw [if_neg (by norm_num), if_pos (by norm_num)]
              rw [show pre.length + (writeHead 0xc0 2).length =
                  (pre ++ writeHead 0xc0 2).length from by simp]
              rw [show pre ++ writeHead 0xc0 2 ++
                  (writeHead 0x40 (magBytes n.toNat).length ++
                    (magBytes n.toNat ++ post)) =
                  (pre ++ writeHead 0xc0 2) ++
                    writeHead 0x40 (magBytes n.toNat).length ++
                    (magBytes n.toNat ++ post) from by simp [List.append_assoc]]
              rw [decodeBignumRaw_enc2 _ hmb (pre ++ writeHead 0xc0 2) post,
                beFold_magBytes]
              have hval : ((n.toNat : Int)) = n := by omega
              rw [hval]
              simp [List.length_append]
              omega
      | vfloat b =>
        simp only [good, Bool.and_eq_true, decide_eq_true_eq, Bool.not_eq_true'] at hg
        have henc : cborEnc (.vfloat b) = encodeAutoFloat b := by simp only [cborEnc]
        rw [henc]
        exact decode_float_enc fuel b hg.1 hg.2 pre post
      | vstr enc bs =>
        have hlen : bs.length < 2 ^ 64 := by
          simp only [good, Bool.and_eq_true, decide_eq_true_eq] at hg
          exact hg.1
        cases enc with
        | binary =>
          have henc : cborEnc (.vstr .binary bs) = writeHead 0x40 bs.length ++ bs := by
            simp only [cborEnc]
            rw [Nat.mod_eq_of_lt hlen]
          rw [henc]
          have hshape : pre ++ (writeHead 0x40 bs.length ++ bs) ++ post =
              pre ++ writeHead 0x40 bs.length ++ (bs ++ post) := by
            simp [List.append_assoc]
          rw [hshape]
          obtain ⟨hb, hri, hrc⟩ := decHead 2 bs.length (by norm_num) hlen pre (bs ++ post)
          simp only [show (32 * 2 : Nat) = 0x40 from rfl] at hb hri hrc
          have hpos : pre.length <
              (pre ++ writeHead 0x40 bs.length ++ (bs ++ post)).length := by
            have hw := writeHead_length_pos 0x40 bs.length
            simp [List.length_append]
            omega
          have hai27 := headAI_le bs.length
          rw [dvBinary fuel _ _ hpos (by rw [hb]; omega) (by rw [hb]; omega),
            decodeBinaryRaw_enc bs hlen pre post]
          simp [List.length_append]
          omega
        | utf8 =>
          have henc : cborEnc (.vstr .utf8 bs) = writeHead 0x60 bs.length ++ bs := by
            simp only [cborEnc]
            rw [Nat.mod_eq_of_lt hlen]
          rw [henc]
          have hshape : pre ++ (writeHead 0x60 bs.length ++ bs) ++ post =
              pre ++ writeHead 0x60 bs.length ++ (bs ++ post) := by
            simp [List.append_assoc]
          rw [hshape]
          obtain ⟨hb, hri, hrc⟩ := decHead 3 bs.length (by norm_num) hlen pre (bs ++ post)
          simp only [show (32 * 3 : Nat) = 0x60 from rfl] at hb hri hrc
          have hpos : pre.length <
              (pre ++ writeHead 0x60 bs.length ++ (bs ++ post)).length := by
            have hw := writeHead_length_pos 0x60 bs.length
            simp [List.length_append]
            omega
          have hai27 := headAI_le bs.length
          rw [dvText fuel _ _ hpos (by rw [hb]; omega) (by rw [hb]; omega),
            decodeTextRaw_enc bs hlen pre post]
          simp [List.length_append]
          omega
      | varr xs =>
        obtain ⟨hlen, hgx⟩ := good_arr hg
        have henc : cborEnc (.varr xs) = writeHead 0x80 xs.length ++ cborEncList xs := by
          simp only [cborEnc]
          rw [Nat.mod_eq_of_lt hlen]
        rw [henc] at hf ⊢
        have hshape : pre ++ (writeHead 0x80 xs.length ++ cborEncList xs) ++ post =
            pre ++ writeHead 0x80 xs.length ++ (cborEncList xs ++ post) := by
          simp [List.append_assoc]
        rw [hshape]
        obtain ⟨hb, hri, hrc⟩ := decHead 4 xs.length (by norm_num) hlen pre
          (cborEncList xs ++ post)
        simp only [show (32 * 4 : Nat) = 0x80 from rfl] at hb hri hrc
        have hpos : pre.length <
            (pre ++ writeHead 0x80 xs.length ++ (cborEncList xs ++ post)).length := by
          have hw := writeHead_length_pos 0x80 xs.length
          simp [List.length_append]
          omega
        have hai27 := headAI_le xs.length
        rw [dvArray fuel _ _ hpos (by rw [hb]; omega) (by rw [hb]; omega)]
        simp only [hri, hrc, ok_bind]
        have hfx : ∀ x ∈ xs, (cborEnc x).length < fuel := by
          intro x hx
          have h1 := cborEncList_mem_le hx
          have h2 := writeHead_length_pos 0x80 xs.length
          simp only [List.length_append] at hf
          omega
        rw [show pre.length + (writeHead 0x80 xs.length).length =
            (pre ++ writeHead 0x80 xs.length).length from by simp]
        rw [show pre ++ writeHead 0x80 xs.length ++ (cborEncList xs ++ post) =
            (pre ++ writeHead 0x80 xs.length) ++ cborEncList xs ++ post from by
          simp [List.append_assoc]]
        rw [defArrayLoop_enc fuel gf ih xs [] (pre ++ writeHead 0x80 xs.length) post
          hgx hfx, ok_bind]
        simp [List.length_append]
        omega
      | vmap ps =>
        obtain ⟨hlen, hkv, hnd⟩ := good_map hg
        have henc : cborEnc (.vmap ps) = writeHead 0xa0 ps.length ++ cborEncPairs ps := by
          simp only [cborEnc]
          rw [Nat.mod_eq_of_lt hlen]
        rw [henc] at hf ⊢
        have hshape : pre ++ (writeHead 0xa0 ps.length ++ cborEncPairs ps) ++ post =
            pre ++ writeHead 0xa0 ps.length ++ (cborEncPairs ps ++ post) := by
          simp [List.append_assoc]
        rw [hshape]
        obtain ⟨hb, hri, hrc⟩ := decHead 5 ps.length (by norm_num) hlen pre
          (cborEncPairs ps ++ post)
        simp only [show (32 * 5 : Nat) = 0xa0 from rfl] at hb hri hrc
        have hpos : pre.length <
            (pre ++ writeHead 0xa0 ps.length ++ (cborEncPairs ps ++ post)).length := by
          have hw := writeHead_length_pos 0xa0 ps.length
          simp [List.length_append]
          omega
        have hai27 := headAI_le ps.length
        rw [dvMap fuel _ _ hpos (by rw [hb]; omega) (by rw [hb]; omega)]
        simp only [hri, hrc, ok_bind]
        have hfp : ∀ kv ∈ ps, (cborEnc kv.1).length < fuel ∧
            (cborEnc kv.2).length < fuel := by
          intro kv hkvm
          have h1 := cborEncPairs_mem_le hkvm
          have h2 := writeHead_length_pos 0xa0 ps.length
          simp only [List.length_append] at hf
          omega
        rw [show pre.length + (writeHead 0xa0 ps.length).length =
            (pre ++ writeHead 0xa0 ps.length).length from by simp]
        rw [show pre ++ writeHead 0xa0 ps.length ++ (cborEncPairs ps ++ post) =
            (pre ++ writeHead 0xa0 ps.length) ++ cborEncPairs ps ++ post from by
          simp [List.append_assoc]]
        rw [defMapLoop_enc fuel gf ih ps [] (pre ++ writeHead 0xa0 ps.length) post
          hkv hfp hnd (fun kv _ p hp => absurd hp (List.not_mem_nil p)), ok_bind]
        simp [List.length_append]
        omega
      | vtagged t v2 =>
        obtain ⟨ht64, ht1, ht2, ht3, ht4, hgv⟩ := good_tagged hg
        have henc : cborEnc (.vtagged t v2) = writeHead 0xc0 t ++ cborEnc v2 := by
          simp only [cborEnc]
          rw [Nat.mod_eq_of_lt ht64]
        rw [henc] at hf ⊢
        have hshape : pre ++ (writeHead 0xc0 t ++ cborEnc v2) ++ post =
            pre ++ writeHead 0xc0 t ++ (cborEnc v2 ++ post) := by
          simp [List.append_assoc]
        rw [hshape]
        obtain ⟨hb, hri, hrc⟩ := decHead 6 t (by norm_num) ht64 pre (cborEnc v2 ++ post)
        simp only [show (32 * 6 : Nat) = 0xc0 from rfl] at hb hri hrc
        have hpos : pre.length <
            (pre ++ writeHead 0xc0 t ++ (cborEnc v2 ++ post)).length := by
          have hw := writeHead_length_pos 0xc0 t
          simp [List.length_append]
          omega
        have hai27 := headAI_le t
        rw [dvTag fuel _ _ hpos (by rw [hb]; omega)]
        unfold decodeTagRaw
        simp only [hri, hrc, ok_bind]
        rw [if_neg ht1, if_neg (by tauto : ¬ (t = 2 ∨ t = 3)), if_neg ht4]
        have hfv : (cborEnc v2).length < fuel := by
          have hw := writeHead_length_pos 0xc0 t
          simp only [List.length_append] at hf
          omega
        rw [show pre.length + (writeHead 0xc0 t).length =
            (pre ++ writeHead 0xc0 t).length from by simp]
        rw [show pre ++ writeHead 0xc0 t ++ (cborEnc v2 ++ post) =
            (pre ++ writeHead 0xc0 t) ++ cborEnc v2 ++ post from by
          simp [List.append_assoc]]
        rw [ih gf v2 (pre ++ writeHead 0xc0 t) post hgv hfv, ok_bind]
        simp [List.length_append]
        omega
      | vsym name => simp [good] at hg
      | vtime v2 => simp [good] at hg
      | vbigdec m e => simp [good] at hg
      | vunsupported => simp [good] at hg


/-! ## Reserved additional information (28-30) across the major types -/

theorem take_one_drop (data : List Nat) (pos : Nat) (h : pos < data.length) :
    (data.drop pos).take 1 = [data.getD pos 0] := by
  induction data generalizing pos with
  | nil => simp at h
  | cons a tl ih =>
    cases pos with
    | zero => simp
    | succ p =>
      simp only [List.drop_succ_cons, List.getD_cons_succ]
      exact ih p (by simpa using h)

theorem decReadInfo_pos {data : List Nat} {pos : Nat} (h : pos < data.length) :
    decReadInfo data pos =
      .ok ((data.getD pos 0 / 32, data.getD pos 0 % 32), pos + 1) := by
  unfold decReadInfo
  have ht : decTake data pos 1 = .ok ([data.getD pos 0], pos + 1) := by
    unfold decTake
    rw [if_pos (by omega), take_one_drop data pos h]
  rw [ht]
  rfl

theorem decReadCount_reserved (data : List Nat) (pos ai : Nat)
    (h1 : 28 ≤ ai) (h2 : ai ≤ 30) :
    decReadCount data pos ai = .error (.unexpectedAddInfo ai) := by
  unfold decReadCount
  rw [if_neg (by omega), if_neg (by omega), if_neg (by omega), if_neg (by omega),
    if_neg (by omega)]

/-! ## The claims -/

/-- C1 (counterexample): a map whose key is the integer `1` encodes to the
well-formed CBOR `{1: 2}` = `A1 01 02`, but decoding those bytes fails: the
map-key path reads the key byte `01` as a text head, consumes the value
byte as text content, and then runs out of bytes.  So
`decode(encode(v)) == v` does not hold for every representable value: maps
are representable, but only text-keyed maps survive the round trip. -/
theorem c1_counterexample :
    rbEncode 2 (.vmap [(.vint 1, .vint 2)]) = .ok [0xa1, 0x01, 0x02] ∧
    rbDecode [0xa1, 0x01, 0x02] = .error (.outOfBytes 1 0) := ⟨rfl, rfl⟩

/-- C1 (amended): for every `good` value — null, booleans, integers of any
size, non-NaN floats, byte and text strings, arrays, maps whose keys are
distinct text strings, and values tagged with an unknown tag number — a
successful module-level encode produces bytes that the module-level decode
maps back to exactly the original value: the string-encoding distinction,
arbitrary-precision integers with their sign, and unknown tags are all
preserved. -/
theorem c1_round_trip_amended (fuel : Nat) (v : RVal) (h : good fuel v = true)
    (out : List Nat) (henc : rbEncode fuel v = .ok out) :
    rbDecode out = .ok v := by
  have hspec : encodeInto fuel [] v = ([] ++ cborEnc v, none) := encodeInto_spec fuel v h []
  rw [List.nil_append] at hspec
  have hout : out = cborEnc v := by
    unfold rbEncode at henc
    simp only [hspec, Except.ok.injEq] at henc
    exact henc.symm
  subst hout
  unfold rbDecode
  have hd := decode_good_enc ((cborEnc v).length + 1) fuel v [] [] h (by omega)
  simp only [List.nil_append, List.append_nil, List.length_nil, Nat.zero_add] at hd
  simp only [hd]
  simp

/-- C1 (witness): a concrete nested value — a map with two text keys, an
array of an integer, a negative integer and a float, and an unknown tag
1000 around a binary string — encodes to concrete bytes and decodes back. -/
theorem c1_round_trip_amended_witness :
    good 4 (RVal.vmap [(.vstr .utf8 [0x61], .varr [.vint 1, .vint (-500),
        .vfloat 0x3FF8000000000000]),
      (.vstr .utf8 [0x62], .vtagged 1000 (.vstr .binary [0xde, 0xad]))]) = true ∧
    rbEncode 4 (RVal.vmap [(.vstr .utf8 [0x61], .varr [.vint 1, .vint (-500),
        .vfloat 0x3FF8000000000000]),
      (.vstr .utf8 [0x62], .vtagged 1000 (.vstr .binary [0xde, 0xad]))]) =
      .ok [0xa2, 0x61, 0x61, 0x83, 0x01, 0x39, 0x01, 0xf3, 0xfa, 0x3f, 0xc0, 0x00,
        0x00, 0x61, 0x62, 0xd9, 0x03, 0xe8, 0x42, 0xde, 0xad] ∧
    rbDecode [0xa2, 0x61, 0x61, 0x83, 0x01, 0x39, 0x01, 0xf3, 0xfa, 0x3f, 0xc0, 0x00,
        0x00, 0x61, 0x62, 0xd9, 0x03, 0xe8, 0x42, 0xde, 0xad] =
      .ok (RVal.vmap [(.vstr .utf8 [0x61], .varr [.vint 1, .vint (-500),
          .vfloat 0x3FF8000000000000]),
        (.vstr .utf8 [0x62], .vtagged 1000 (.vstr .binary [0xde, 0xad]))]) :=
  ⟨by rfl, by rfl, c1_round_trip_amended 4 _ (by rfl) _ (by rfl)⟩

/-- C2: `write_head` picks the smallest of the five head encodings — packed
byte for values up to 23, marker plus 1/2/4/8 big-endian bytes as the value
grows — and through `encode_integer` the module encode gives the spec's five
canonical byte strings for 0, 23, 24, -1 and 256. -/
theorem c2_head_minimal (m v : Nat) :
    (v ≤ 23 → writeHead m v = [m + v]) ∧
    (24 ≤ v → v ≤ 0xff → writeHead m v = [m + 24, v]) ∧
    (0x100 ≤ v → v ≤ 0xffff → writeHead m v = (m + 25) :: natToBE 2 v) ∧
    (0x10000 ≤ v → v ≤ 0xffffffff → writeHead m v = (m + 26) :: natToBE 4 v) ∧
    (0x100000000 ≤ v → writeHead m v = (m + 27) :: natToBE 8 v) ∧
    rbEncode 1 (.vint 0) = .ok [0x00] ∧
    rbEncode 1 (.vint 23) = .ok [0x17] ∧
    rbEncode 1 (.vint 24) = .ok [0x18, 0x18] ∧
    rbEncode 1 (.vint (-1)) = .ok [0x20] ∧
    rbEncode 1 (.vint 256) = .ok [0x19, 0x01, 0x00] := by
  refine ⟨fun h => ?_, fun h1 h2 => ?_, fun h1 h2 => ?_, fun h1 h2 => ?_,
    fun h1 => ?_, rfl, rfl, rfl, rfl, rfl⟩ <;> unfold writeHead
  · rw [if_pos h]
  · rw [if_neg (by omega), if_pos h2]
  · rw [if_neg (by omega), if_neg (by omega), if_pos h2]
  · rw [if_neg (by omega), if_neg (by omega), if_neg (by omega), if_pos h2]
  · rw [if_neg (by omega), if_neg (by omega), if_neg (by omega), if_neg (by omega)]

/-- C2 (witness): the head for value 42 under major type 1 (`0x20`) is the
two-byte form. -/
theorem c2_head_minimal_witness :
    24 ≤ 42 ∧ 42 ≤ 0xff ∧ writeHead 0x20 42 = [0x20 + 24, 42] :=
  ⟨by decide, by decide, (c2_head_minimal 0x20 42).2.1 (by decide) (by decide)⟩

/-- C3 (counterexample): NaN does NOT encode as the 8-byte `0xFB` form the
claim demands: `encode_auto_float` sends NaN through the `val as f32` cast
and emits the 4-byte `0xFA` form. -/
theorem c3_counterexample :
    isNan64 0x7FF8000000000000 = true ∧
    encodeAutoFloat 0x7FF8000000000000 = [0xfa, 0x7f, 0xc0, 0x00, 0x00] := ⟨rfl, rfl⟩

/-- C3 (amended): NaN and every value that round-trips exactly through
32-bit precision encode as the 4-byte `0xFA` single-precision form (NaN via
the narrowing cast of its payload); only a non-NaN value that does not
round-trip through 32 bits encodes as the 8-byte `0xFB` form.  In
particular 1.5 takes the 4-byte form and 1.1 the 8-byte form. -/
theorem c3_float_selection_amended (b : Nat) :
    (isNan64 b = true → encodeAutoFloat b = 0xfa :: natToBE 4 (f64ToF32 b)) ∧
    (isNan64 b = false → f32ToF64 (f64ToF32 b) = b →
      encodeAutoFloat b = 0xfa :: natToBE 4 (f64ToF32 b)) ∧
    (isNan64 b = false → ¬ f32ToF64 (f64ToF32 b) = b →
      encodeAutoFloat b = 0xfb :: natToBE 8 b) ∧
    encodeAutoFloat 0x3FF8000000000000 = [0xfa, 0x3f, 0xc0, 0x00, 0x00] ∧
    encodeAutoFloat 0x3FF199999999999A =
      [0xfb, 0x3f, 0xf1, 0x99, 0x99, 0x99, 0x99, 0x99, 0x9a] := by
  refine ⟨fun h => ?_, fun h1 h2 => ?_, fun h1 h2 => ?_, rfl, rfl⟩ <;>
    unfold encodeAutoFloat
  · rw [if_pos h]
  · rw [if_neg (by simp [h1])]
    show (if f32ToF64 (f64ToF32 b) = b then 0xfa :: natToBE 4 (f64ToF32 b)
      else encodeDouble b) = _
    rw [if_pos h2]
  · rw [if_neg (by simp [h1])]
    show (if f32ToF64 (f64ToF32 b) = b then 0xfa :: natToBE 4 (f64ToF32 b)
      else encodeDouble b) = _
    rw [if_neg h2]
    rfl

/-- C3 (witness): 1.5 (bits `0x3FF8000000000000`) is not NaN, survives the
32-bit round trip, and encodes in the 4-byte form. -/
theorem c3_float_selection_amended_witness :
    isNan64 0x3FF8000000000000 = false ∧
    f32ToF64 (f64ToF32 0x3FF8000000000000) = 0x3FF8000000000000 ∧
    encodeAutoFloat 0x3FF8000000000000 =
      0xfa :: natToBE 4 (f64ToF32 0x3FF8000000000000) :=
  ⟨by rfl, by rfl, (c3_float_selection_amended 0x3FF8000000000000).2.1 (by rfl) (by rfl)⟩

/-- C4 (counterexample): the magnitude written for a negative bignum is
`-1 - v`, not `abs(v)`: `-(2^63) - 1` encodes with magnitude bytes
`80 00 00 00 00 00 00 00` = `2^63`, while `abs(v) = 2^63 + 1`. -/
theorem c4_counterexample :
    rbEncode 1 (.vint (-(2 ^ 63) - 1)) =
      .ok [0xc3, 0x48, 0x80, 0x00, 0x00, 0x00, 0x00, 0x00, 0x00, 0x00] ∧
    (beFold [0x80, 0x00, 0x00, 0x00, 0x00, 0x00, 0x00, 0x00] : Int) ≠
      ((-(2 ^ 63) - 1 : Int)).natAbs := ⟨by rfl, by decide⟩

/-- C4 (amended): integers in the i64 range go through `encode_integer`,
the remaining u64 range goes out directly under major 0, and only values
outside both get Tag 2 (positive, magnitude bytes folding back to `v`) or
Tag 3 (negative, magnitude bytes folding back to `-1 - v`, the sign carried
by the tag). -/
theorem c4_bignum_amended (n : Int) (hg : good 1 (.vint n) = true) :
    (-(2 ^ 63) ≤ n ∧ n < 2 ^ 63 → cborEnc (.vint n) = encodeInteger n) ∧
    (¬(-(2 ^ 63) ≤ n ∧ n < 2 ^ 63) → 0 ≤ n ∧ n < 2 ^ 64 →
      cborEnc (.vint n) = writeHead 0x00 n.toNat) ∧
    (2 ^ 64 ≤ n → ∃ mb : List Nat,
      cborEnc (.vint n) = writeHead 0xc0 2 ++ writeHead 0x40 mb.length ++ mb ∧
      (beFold mb : Int) = n) ∧
    (n < -(2 ^ 63) → ∃ mb : List Nat,
      cborEnc (.vint n) = writeHead 0xc0 3 ++ writeHead 0x40 mb.length ++ mb ∧
      (beFold mb : Int) = -1 - n) := by
  refine ⟨fun h => ?_, fun h1 h2 => ?_, fun h => ?_, fun h => ?_⟩
  · simp only [cborEnc]
    rw [if_pos h]
  · simp only [cborEnc]
    rw [if_neg h1, if_pos h2]
  · have hmb : (magBytes n.toNat).length < 2 ^ 64 := by
      simp only [good] at hg
      rw [if_pos h] at hg
      exact of_decide_eq_true hg
    refine ⟨magBytes n.toNat, ?_, ?_⟩
    · simp only [cborEnc]
      rw [if_neg (by omega), if_neg (by omega)]
      simp [show ¬ n < 0 from by omega, List.append_assoc]
      congr 1
      omega
    · rw [beFold_magBytes]
      omega
  · have hmb : (magBytes (-1 - n).toNat).length < 2 ^ 64 := by
      simp only [good] at hg
      rw [if_neg (by omega), if_pos h] at hg
      exact of_decide_eq_true hg
    refine ⟨magBytes (-1 - n).toNat, ?_, ?_⟩
    · simp only [cborEnc]
      rw [if_neg (by omega), if_neg (by omega)]
      simp [show n < 0 from by omega, List.append_assoc]
      congr 1
      omega
    · rw [beFold_magBytes]
      omega

/-- C4 (witness): `2^64` gets Tag 2 with magnitude bytes folding back to
`2^64`. -/
theorem c4_bignum_amended_witness :
    good 1 (.vint (2 ^ 64)) = true ∧
    ∃ mb : List Nat,
      cborEnc (.vint (2 ^ 64)) = writeHead 0xc0 2 ++ writeHead 0x40 mb.length ++ mb ∧
      (beFold mb : Int) = 2 ^ 64 :=
  ⟨by rfl, (c4_bignum_amended (2 ^ 64) (by rfl)).2.2.1 (by norm_num)⟩

/-- C5: the definite-length map decoder does NOT decode keys with the
generic value decoder.  On `A1 01 02` (the map `{1: 2}`) the generic
decoder would read the key byte `01` as the integer 1, but the inlined
map-key path hands it to `decode_text_raw`, which treats it as a text head
of length 1, swallows the value byte `02` as text content, and the decode
dies reading a missing value.  Non-text keys are never reproduced. -/
theorem c5_map_key_bug :
    decodeValue 3 [0xa1, 0x01, 0x02] 1 = .ok (.vint 1, 2) ∧
    decodeMapKey [0xa1, 0x01, 0x02] 1 = .ok (.vstr .utf8 [0x02], 3) ∧
    rbDecode [0xa1, 0x01, 0x02] = .error (.outOfBytes 1 0) := ⟨rfl, rfl, rfl⟩

/-- C6 (counterexample): a failed `Encoder#add` is not all-or-nothing: the
array `[1, <unmappable>]` fails after the head and first element are
already in the buffer, and `bytes` then returns those partial bytes. -/
theorem c6_counterexample :
    rbAdd 2 [] (.varr [.vint 1, .vunsupported]) = ([0x82, 0x01], some .unknownType) ∧
    rbBytes [0x82, 0x01] ≠ rbBytes [] := ⟨rfl, by simp [rbBytes]⟩

/-- C6 (amended): every encode error aborts the call immediately and
propagates — the module-level `encode` returns the error with no partial
result — but `Encoder#add` has no rollback: the owned buffer keeps its
previous contents plus whatever prefix of the failed value was already
written. -/
theorem c6_error_propagation_amended (fuel : Nat) (v : RVal) (e : EncErr)
    (buf out : List Nat) (h : rbAdd fuel buf v = (out, some e)) :
    rbEncode fuel v = .error e ∧ ∃ extra, rbBytes out = rbBytes buf ++ extra := by
  unfold rbAdd at h
  rw [encodeInto_append fuel v buf] at h
  have h1 : buf ++ (encodeInto fuel [] v).1 = out := congrArg Prod.fst h
  have h2 : (encodeInto fuel [] v).2 = some e := congrArg Prod.snd h
  constructor
  · unfold rbEncode
    rw [show encodeInto fuel [] v =
        ((encodeInto fuel [] v).1, (encodeInto fuel [] v).2) from rfl, h2]
  · exact ⟨(encodeInto fuel [] v).1, h1.symm⟩

/-- C6 (witness): after a successful add left `00` in the buffer, the
failing add of `[1, <unmappable>]` leaves `00 82 01` there, while the
module-level encode of the same value reports only the error. -/
theorem c6_error_propagation_amended_witness :
    rbAdd 2 [0x00] (.varr [.vint 1, .vunsupported]) =
      ([0x00, 0x82, 0x01], some .unknownType) ∧
    (rbEncode 2 (.varr [.vint 1, .vunsupported]) = .error .unknownType ∧
      ∃ extra, rbBytes [0x00, 0x82, 0x01] = rbBytes [0x00] ++ extra) :=
  ⟨by rfl, c6_error_propagation_amended 2 _ .unknownType [0x00] [0x00, 0x82, 0x01]
    (by rfl)⟩

/-- C7 (counterexample): under major type 7 a reserved additional-info
value (28-30) does NOT raise `UnexpectedAdditionalInformationError`: the
catch-all arm raises the generic `Error` ("Undefined reserved additional
information"), unlike major types 0-6 where `dec_read_count` raises the
specific error. -/
theorem c7_counterexample :
    rbDecode [0xfc] = .error (.reservedInfo 28) ∧
    rbDecode [0x1c] = .error (.unexpectedAddInfo 28) := ⟨rfl, rfl⟩

/-- C7 (amended): a head byte with additional information 28-30 always
fails, but the error class depends on the major type: majors 0-6 fail with
`UnexpectedAdditionalInformationError` (from `dec_read_count`), major 7
fails with the generic `Error` for undefined reserved additional
information. -/
theorem c7_reserved_info_amended (fuel : Nat) (data : List Nat) (pos : Nat)
    (hpos : pos < data.length) (hb : data.getD pos 0 < 256)
    (h28 : 28 ≤ data.getD pos 0 % 32) (h30 : data.getD pos 0 % 32 ≤ 30) :
    decodeValue (fuel + 1) data pos =
      if data.getD pos 0 / 32 = 7 then
        .error (.reservedInfo (data.getD pos 0 % 32))
      else .error (.unexpectedAddInfo (data.getD pos 0 % 32)) := by
  have hi := decReadInfo_pos hpos
  have hrc : ∀ q, decReadCount data q (data.getD pos 0 % 32) =
      .error (.unexpectedAddInfo (data.getD pos 0 % 32)) :=
    fun q => decReadCount_reserved data q _ h28 h30
  obtain ⟨M, hM⟩ : ∃ M, data.getD pos 0 / 32 = M := ⟨_, rfl⟩
  have hM8 : M < 8 := by omega
  interval_cases M
  · rw [if_neg (by omega), dvIntBig fuel data pos hpos (Or.inl hM) (by omega)]
    unfold decodeIntegerRaw
    simp only [hi, hrc, ok_bind, error_bind]
  · rw [if_neg (by omega), dvIntBig fuel data pos hpos (Or.inr hM) (by omega)]
    unfold decodeIntegerRaw
    simp only [hi, hrc, ok_bind, error_bind]
  · rw [if_neg (by omega), dvBinary fuel data pos hpos hM (by omega)]
    unfold decodeBinaryRaw
    simp only [hi, hrc, ok_bind, error_bind]
  · rw [if_neg (by omega), dvText fuel data pos hpos hM (by omega)]
    unfold decodeTextRaw
    rw [if_neg (by intro hc; omega)]
    simp only [hi, hrc, ok_bind, error_bind]
  · rw [if_neg (by omega), dvArray fuel data pos hpos hM (by omega)]
    simp only [hi, hrc, ok_bind, error_bind]
  · rw [if_neg (by omega), dvMap fuel data pos hpos hM (by omega)]
    simp only [hi, hrc, ok_bind, error_bind]
  · rw [if_neg (by omega), dvTag fuel data pos hpos hM]
    unfold decodeTagRaw
    simp only [hi, hrc, ok_bind, error_bind]
  · rw [if_pos hM]
    exact dvReserved7 fuel data pos _ hpos hM rfl h28 h30

/-- C7 (witness): the byte `0xDD` (major 6, additional info 29) fails with
the `UnexpectedAdditionalInformationError` branch of the dichotomy. -/
theorem c7_reserved_info_amended_witness :
    28 ≤ [0xdd].getD 0 0 % 32 ∧
    decodeValue 1 [0xdd] 0 =
      (if [0xdd].getD 0 0 / 32 = 7 then
        Except.error (DErr.reservedInfo ([0xdd].getD 0 0 % 32))
      else Except.error (DErr.unexpectedAddInfo ([0xdd].getD 0 0 % 32))) :=
  ⟨by decide, c7_reserved_info_amended 0 [0xdd] 0 (by decide) (by decide) (by decide)
    (by decide)⟩

/-- C8 (counterexample): the payload's major type is NOT checked: a Tag 2
whose payload has a major-1 head (`C2 23 AA BB CC`) is happily read as a
3-byte magnitude, and a Tag 4 whose payload is not an array (`C4 22 01 02`,
a major-1 head with count 2) is accepted as a decimal fraction. -/
theorem c8_counterexample :
    rbDecode [0xc2, 0x23, 0xaa, 0xbb, 0xcc] = .ok (.vint 11189196) ∧
    rbDecode [0xc4, 0x22, 0x01, 0x02] = .ok (.vbigdec 2 1) := ⟨rfl, rfl⟩

/-- C8 (amended): under Tag 2/3 the decoder reads any definite-length head
(whatever its major type), takes that many bytes as a big-endian magnitude,
and Tag 3 yields `-1 - magnitude`; under Tag 4 only the pair count is
checked — a count other than 2 is rejected with the length error, again for
a head of any major type. -/
theorem c8_tag_payload_amended (m : Nat) (hm : m < 8) (mb : List Nat)
    (hlen : mb.length < 2 ^ 64) (pre post : List Nat) :
    decodeBignumRaw (pre ++ writeHead (32 * m) mb.length ++ (mb ++ post)) pre.length 2 =
      .ok (.vint (beFold mb),
        pre.length + (writeHead (32 * m) mb.length).length + mb.length) ∧
    decodeBignumRaw (pre ++ writeHead (32 * m) mb.length ++ (mb ++ post)) pre.length 3 =
      .ok (.vint (-1 - (beFold mb : Int)),
        pre.length + (writeHead (32 * m) mb.length).length + mb.length) ∧
    (∀ k, k < 2 ^ 64 → k ≠ 2 →
      decodeBigdecRaw (pre ++ writeHead (32 * m) k ++ post) pre.length =
        .error (.bigdecLen k)) := by
  obtain ⟨hb, hri, hrc⟩ := decHead m mb.length hm hlen pre (mb ++ post)
  have ht : decTake (pre ++ writeHead (32 * m) mb.length ++ (mb ++ post))
      (pre.length + (writeHead (32 * m) mb.length).length) mb.length =
      .ok (mb, pre.length + (writeHead (32 * m) mb.length).length + mb.length) := by
    have h2 : pre ++ writeHead (32 * m) mb.length ++ (mb ++ post) =
        (pre ++ writeHead (32 * m) mb.length) ++ mb ++ post := by
      simp [List.append_assoc]
    rw [h2]
    have h3 := decTake_append (pre ++ writeHead (32 * m) mb.length) mb post mb.length rfl
    simpa [List.length_append] using h3
  refine ⟨?_, ?_, ?_⟩
  · unfold decodeBignumRaw
    simp only [hri, hrc, ht, ok_bind]
    norm_num
  · unfold decodeBignumRaw
    simp only [hri, hrc, ht, ok_bind]
    norm_num
  · intro k hk hk2
    obtain ⟨hb2, hri2, hrc2⟩ := decHead m k hm hk pre post
    unfold decodeBigdecRaw
    simp only [hri2, hrc2, ok_bind]
    rw [if_neg hk2]

/-- C8 (witness): a Tag 3 payload whose head has major type 1 (`21 AA`) is
read as the one-byte magnitude `0xAA`, giving `-171`. -/
theorem c8_tag_payload_amended_witness :
    (1 : Nat) < 8 ∧ ([0xaa] : List Nat).length < 2 ^ 64 ∧
    decodeBignumRaw (([] : List Nat) ++ writeHead (32 * 1) ([0xaa] : List Nat).length ++
        ([0xaa] ++ [])) ([] : List Nat).length 3 =
      .ok (.vint (-1 - (beFold [0xaa] : Int)),
        ([] : List Nat).length + (writeHead (32 * 1) ([0xaa] : List Nat).length).length +
          ([0xaa] : List Nat).length) :=
  ⟨by decide, by decide,
    (c8_tag_payload_amended 1 (by decide) [0xaa] (by decide) [] []).2.1⟩

/-- C9: the module-level decode consumes the whole input or fails: a
decoded value that leaves bytes behind becomes `ExtraBytesError` with the
exact remaining count, reads past the end fail inside `dec_take` with
`OutOfBytesError` stating requested vs available, and the two concrete
inputs of the claim behave as stated. -/
theorem c9_full_consumption (data : List Nat) :
    (∀ v p, decodeValue (data.length + 1) data 0 = .ok (v, p) →
      (p < data.length → rbDecode data = .error (.extraBytes (data.length - p))) ∧
      (p = data.length → rbDecode data = .ok v)) ∧
    (∀ pos n : Nat, data.length < pos + n →
      decTake data pos n = .error (.outOfBytes n ((data.length : Int) - pos))) ∧
    rbDecode [0x01, 0x02] = .error (.extraBytes 1) ∧
    rbDecode [0x19, 0x01] = .error (.outOfBytes 2 1) := by
  refine ⟨fun v p h => ⟨fun hlt => ?_, fun heq => ?_⟩, fun pos n hn => ?_, rfl, rfl⟩
  · unfold rbDecode
    simp only [h]
    rw [if_pos hlt]
  · unfold rbDecode
    simp only [h]
    rw [if_neg (by omega)]
  · unfold decTake
    rw [if_neg (by omega)]

/-- C9 (witness): `[01 02]` decodes the value 1 ending at position 1 and
the module decode reports one extra byte. -/
theorem c9_full_consumption_witness :
    decodeValue ([0x01, 0x02].length + 1) [0x01, 0x02] 0 = .ok (.vint 1, 1) ∧
    rbDecode [0x01, 0x02] = .error (.extraBytes ([0x01, 0x02].length - 1)) :=
  ⟨rfl, ((c9_full_consumption [0x01, 0x02]).1 (.vint 1) 1 rfl).1 (by decide)⟩

/-- C10: the stateful `Decoder#decode` commits the advanced cursor before
the trailing-bytes check, so an `ExtraBytesError` still moves the cursor
past the decoded value; a decode error leaves the cursor untouched; the
committed cursor never exceeds the buffer length; and on the three-value
buffer `[01 02 03]` successive calls yield the three values, every call
but the last with `ExtraBytesError`. -/
theorem c10_cursor_commit (data : List Nat) (pos : Nat) :
    (∀ v p, decodeValue (data.length + 1) data pos = .ok (v, p) →
      p ≤ data.length ∧
      (p < data.length →
        decoderDecode data pos = (.error (.extraBytes (data.length - p)), p)) ∧
      (¬ p < data.length → decoderDecode data pos = (.ok v, p))) ∧
    (∀ e, decodeValue (data.length + 1) data pos = .error e →
      decoderDecode data pos = (.error e, pos)) ∧
    decoderDecode [0x01, 0x02, 0x03] 0 = (.error (.extraBytes 2), 1) ∧
    decoderDecode [0x01, 0x02, 0x03] 1 = (.error (.extraBytes 1), 2) ∧
    decoderDecode [0x01, 0x02, 0x03] 2 = (.ok (.vint 3), 3) := by
  refine ⟨fun v p h => ⟨decodeValue_le _ _ _ _ h, fun hlt => ?_, fun hge => ?_⟩,
    fun e h => ?_, rfl, rfl, rfl⟩
  · unfold decoderDecode
    simp only [h]
    rw [if_pos hlt]
  · unfold decoderDecode
    simp only [h]
    rw [if_neg hge]
  · unfold decoderDecode
    simp only [h]

/-- C10 (witness): on `[01 02 03]` the first call decodes 1, commits the
cursor at 1, and reports the two remaining bytes. -/
theorem c10_cursor_commit_witness :
    decodeValue ([0x01, 0x02, 0x03].length + 1) [0x01, 0x02, 0x03] 0 =
      .ok (.vint 1, 1) ∧
    decoderDecode [0x01, 0x02, 0x03] 0 =
      (.error (.extraBytes ([0x01, 0x02, 0x03].length - 1)), 1) :=
  ⟨rfl, ((c10_cursor_commit [0x01, 0x02, 0x03] 0).1 (.vint 1) 1 rfl).2.1 (by decide)⟩

end Cbor
